import Mathlib

/-!
Verification of the `cycle-sort` crate (src/cycle_sort.rs, src/util.rs).

The Rust core is `cycle_impl<T, F>(slice: &mut [T], is_less: &F) -> usize`:
for each `src` in `0..length-1` it reads `slice[src]` into a temporary,
counts the elements of `slice[src+1..]` strictly less than the temporary to
find its destination, skips past duplicates, and then follows the
displacement cycle with one swap per element, counting writes.

The embedding below models the slice as a `List α`, the comparison as a
boolean relation `is_less : α → α → Bool`, and one invocation as a
fuel-indexed interpreter that also records an event trace:
`Ev.read i` whenever `slice[i]` is passed to `is_less`, `Ev.write i` for the
slot write performed by a swap (`mem::swap(&mut *tmp, &mut slice[dst])`),
and `Ev.close src` when the cycle started at `src` terminates.  Fuel is
needed because the `while dst != src` loop of the source need not terminate
for relations that are not strict weak orderings; `Res.fuel` reports fuel
exhaustion and `Res.panic` an out-of-bounds slice access (a Rust panic).
-/

set_option maxHeartbeats 1000000

namespace CycleSort

/-- Events recorded while the sort runs: a slot read whose value is passed
to `is_less`, a slot write performed by a swap, and the close of a
displacement cycle started at the given index. -/
inductive Ev where
  | read  : Nat → Ev
  | write : Nat → Ev
  | close : Nat → Ev
deriving DecidableEq

/-- Result of running the embedded sort: a normal return carrying the final
sequence, the write counter and the event trace; an out-of-bounds slice
access (a Rust panic); or fuel exhaustion (the run did not finish within
the given fuel, modelling non-termination). -/
inductive Res (α : Type) where
  | ok    : List α → Nat → List Ev → Res α
  | panic : Res α
  | fuel  : Res α
deriving DecidableEq

/-- Embeds `util::are_equal`: `!is_less(&a, &b) && !is_less(&b, &a)`. -/
def are_equal (is_less : α → α → Bool) (a b : α) : Bool :=
  !is_less a b && !is_less b a

/-- Embeds `util::is_sorted`: `slice.windows(2).all(|w| !is_less(&w[1], &w[0]))`. -/
def is_sorted (is_less : α → α → Bool) : List α → Bool
  | [] => true
  | [_] => true
  | a :: b :: rest => !is_less b a && is_sorted is_less (b :: rest)

/-- Read events for the slots `a, a+1, ..., n-1`, in order. -/
def readsRange (a n : Nat) : List Ev :=
  (List.range' a (n - a)).map Ev.read

/-- The counting pass of `cycle_impl`:
`for i in src + 1..length { if is_less(&slice[i], &tmp) { dst += 1; } }`,
starting from `dst = src`; this returns the number of increments. -/
def countLess (is_less : α → α → Bool) (l : List α) (src : Nat) (tmp : α) : Nat :=
  (l.drop (src + 1)).countP (fun x => is_less x tmp)

/-- Walks `rest` (the slice contents from slot `d` on) while the current
element is `are_equal` to `tmp`, returning the index of the first slot
whose element is not, or `none` when the walk runs past the end of the
slice (where `slice[dst]` would panic). -/
def skipDupGo (is_less : α → α → Bool) (tmp : α) : List α → Nat → Option Nat
  | [], _ => none
  | x :: rest, d =>
    if are_equal is_less tmp x then skipDupGo is_less tmp rest (d + 1) else some d

/-- The duplicate-skip loop of `cycle_impl`:
`while util::are_equal(&*tmp, &slice[dst], is_less) { dst += 1; }`. -/
def skipDup (is_less : α → α → Bool) (l : List α) (tmp : α) (dst : Nat) : Option Nat :=
  skipDupGo is_less tmp (l.drop dst) dst

/-- The cycle-following loop of `cycle_impl` (`while dst != src { ... }`):
recompute `dst` by counting, skip duplicates, swap `tmp` with `slice[dst]`
and count one write, until the cycle returns to `src`.  One unit of fuel is
consumed per iteration. -/
def cycleLoop (is_less : α → α → Bool) (src : Nat) :
    Nat → List α → α → Nat → Nat → List Ev → Res α
  | 0, _, _, _, _, _ => .fuel
  | fuel + 1, l, tmp, dst, writes, tr =>
    if dst = src then .ok l writes tr
    else
      match skipDup is_less l tmp (src + countLess is_less l src tmp) with
      | none => .panic
      | some d =>
        match l.get? d with
        | none => .panic
        | some x =>
          cycleLoop is_less src fuel (l.set d tmp) x d (writes + 1)
            (tr ++ readsRange (src + 1) l.length ++
              readsRange (src + countLess is_less l src tmp) (d + 1) ++ [Ev.write d])

/-- The outer loop of `cycle_impl` (`for src in 0..length - 1`), with `k`
the number of remaining values of `src`.  Each iteration reads
`slice[src]` into the temporary, counts, and either moves on (`dst == src`)
or resolves one displacement cycle. -/
def outerLoop (is_less : α → α → Bool) (fuel : Nat) :
    Nat → Nat → List α → Nat → List Ev → Res α
  | 0, _, l, writes, tr => .ok l writes tr
  | k + 1, src, l, writes, tr =>
    match l.get? src with
    | none => .panic
    | some tmp =>
      if src + countLess is_less l src tmp = src then
        outerLoop is_less fuel k (src + 1) l writes (tr ++ readsRange (src + 1) l.length)
      else
        match skipDup is_less l tmp (src + countLess is_less l src tmp) with
        | none => .panic
        | some d =>
          match l.get? d with
          | none => .panic
          | some x =>
            match cycleLoop is_less src fuel (l.set d tmp) x d (writes + 1)
                (tr ++ readsRange (src + 1) l.length ++
                  readsRange (src + countLess is_less l src tmp) (d + 1) ++ [Ev.write d]) with
            | .ok l' w' tr' => outerLoop is_less fuel k (src + 1) l' w' (tr' ++ [Ev.close src])
            | r => r

/-- Embeds `cycle_impl`.  The boolean `size_is_zero` models the Rust test
`mem::size_of::<T>() == 0` (zero-size element types), which together with
`length < 2` selects the fast no-op path returning 0. -/
def cycle_impl (is_less : α → α → Bool) (size_is_zero : Bool) (l : List α) (fuel : Nat) :
    Res α :=
  if size_is_zero || l.length < 2 then .ok l 0 []
  else outerLoop is_less fuel (l.length - 1) 0 l 0 []

/-- Embeds `cycle_sort`: sorts by the element type's natural order,
`cycle_impl(slice, &|a, b| a.lt(b))`. -/
def cycle_sort [LinearOrder α] (size_is_zero : Bool) (l : List α) (fuel : Nat) : Res α :=
  cycle_impl (fun a b => decide (a < b)) size_is_zero l fuel

/-- Embeds `cycle_sort_by`: sorts by a three-way comparator,
`cycle_impl(slice, &|a, b| compare(a, b) == Ordering::Less)`. -/
def cycle_sort_by (cmp : α → α → Ordering) (size_is_zero : Bool) (l : List α) (fuel : Nat) :
    Res α :=
  cycle_impl (fun a b => cmp a b == Ordering.lt) size_is_zero l fuel

/-- Embeds `cycle_sort_by_key`: sorts by a key extraction function,
`cycle_impl(slice, &|a, b| key(a).lt(&key(b)))`. -/
def cycle_sort_by_key [LinearOrder β] (key : α → β) (size_is_zero : Bool) (l : List α)
    (fuel : Nat) : Res α :=
  cycle_impl (fun a b => decide (key a < key b)) size_is_zero l fuel

/-- A strict weak ordering, as assumed by the crate's documentation for the
correctness guarantees: irreflexive, transitive, with transitive
incomparability. -/
structure IsSWO (is_less : α → α → Bool) : Prop where
  irrefl : ∀ a, is_less a a = false
  lt_trans : ∀ a b c, is_less a b = true → is_less b c = true → is_less a c = true
  incomp_trans : ∀ a b c, are_equal is_less a b = true → are_equal is_less b c = true →
      are_equal is_less a c = true

/-- Number of elements of `l₀` strictly below `x` (the base rank of `x`). -/
def rankLt (is_less : α → α → Bool) (l₀ : List α) (x : α) : Nat :=
  l₀.countP (fun y => is_less y x)

/-- Number of elements of `l₀` incomparable with (equivalent to) `x`. -/
def rankEq (is_less : α → α → Bool) (l₀ : List α) (x : α) : Nat :=
  l₀.countP (fun y => are_equal is_less x y)

/-- Slot `j` of `l` holds an element lying inside its own equivalence
class's range of final positions (relative to the multiset of `l₀`). -/
def Happy (is_less : α → α → Bool) (l₀ l : List α) (j : Nat) : Prop :=
  ∃ x, l.get? j = some x ∧
    rankLt is_less l₀ x ≤ j ∧ j < rankLt is_less l₀ x + rankEq is_less l₀ x

/-- Number of slots whose occupant in `b` differs from their occupant in
`a` (`count(i where final[i] != initial[i])`). -/
def diffCount [DecidableEq α] (a b : List α) : Nat :=
  (List.range a.length).countP (fun j => decide (a.get? j ≠ b.get? j))

/-- Number of write events to slot `j` in a trace. -/
def writesAt (tr : List Ev) (j : Nat) : Nat :=
  tr.countP (fun e => decide (e = Ev.write j))

/-- The natural strict order on `Nat`, as a boolean relation. -/
def natLt : Nat → Nat → Bool := fun a b => decide (a < b)

/-- Boolean test: slot `j` of `l` exists and is not happy. -/
def unhappyB (lt : α → α → Bool) (l₀ l : List α) (j : Nat) : Bool :=
  match l.get? j with
  | none => false
  | some x =>
    !(decide (rankLt lt l₀ x ≤ j) && decide (j < rankLt lt l₀ x + rankEq lt l₀ x))

/-- Number of unhappy slots among `s + 1, ..., l.length - 1`. -/
def unhappyCount (lt : α → α → Bool) (l₀ l : List α) (s : Nat) : Nat :=
  (List.range' (s + 1) (l.length - (s + 1))).countP (unhappyB lt l₀ l)

/-- Loop invariant of the cycle-following loop at outer index `s`: `l₀` is
the original sequence, `L` the sequence at the start of this outer
iteration, and `(l, tmp, dst, w, tr)` is the current loop state. -/
structure CInv [DecidableEq α] (lt : α → α → Bool) (l₀ L : List α) (s : Nat)
    (l : List α) (tmp : α) (dst : Nat) (w : Nat) (tr : List Ev) : Prop where
  len : l.length = L.length
  take_eq : l.take s = L.take s
  stale : l.get? s = L.get? s
  perm : (tmp :: l.drop (s + 1)).Perm (L.drop s)
  dst_lb : s < dst
  dst_ub : dst < l.length
  blocker : ∀ x, l.get? dst = some x → are_equal lt tmp x = false
  untouched : ∀ j, ¬ Happy lt l₀ l j → l.get? j = l₀.get? j
  wacc : w = diffCount l₀ l
  trw : ∀ j, writesAt tr j = if l.get? j ≠ l₀.get? j then 1 else 0

/-- What holds of the state returned by the cycle-following loop. -/
structure CPost [DecidableEq α] (lt : α → α → Bool) (l₀ L : List α) (s : Nat)
    (l' : List α) (w' : Nat) (tr' : List Ev) : Prop where
  len : l'.length = L.length
  take_eq : l'.take s = L.take s
  perm : (l'.drop s).Perm (L.drop s)
  top : ∀ t, l'.get? s = some t → (l'.drop (s + 1)).countP (fun y => lt y t) = 0
  happy_s : Happy lt l₀ l' s
  untouched : ∀ j, ¬ Happy lt l₀ l' j → l'.get? j = l₀.get? j
  wacc : w' = diffCount l₀ l'
  trw : ∀ j, writesAt tr' j = if l'.get? j ≠ l₀.get? j then 1 else 0


/-- Whether a run returned normally. -/
def isOk : Res α → Bool
  | .ok _ _ _ => true
  | _ => false

/-- The event trace of a normal return (empty otherwise). -/
def getTr : Res α → List Ev
  | .ok _ _ tr => tr
  | _ => []

/-- Whether an event is the close of a cycle. -/
def isClose : Ev → Bool
  | .close _ => true
  | _ => false

/-- The event trace produced by `cycle_impl natLt false [3, 1, 2] 9`, used
to examine the temporal behaviour of one concrete run. -/
def c6trace : List Ev :=
  [Ev.read 1, Ev.read 2, Ev.read 2, Ev.write 2, Ev.read 1, Ev.read 2, Ev.read 1,
   Ev.write 1, Ev.read 1, Ev.read 2, Ev.read 0, Ev.write 0, Ev.close 0, Ev.read 2]

/-- Invariant of the outer loop before processing index `s`. -/
structure OInv [DecidableEq α] (lt : α → α → Bool) (l₀ : List α) (s : Nat)
    (L : List α) (w : Nat) (tr : List Ev) : Prop where
  len : L.length = l₀.length
  perm : L.Perm l₀
  ps : ∀ x ∈ L.take s, ∀ y ∈ L.drop s, lt y x = false
  happy : ∀ j, j < s → Happy lt l₀ L j
  untouched : ∀ j, ¬ Happy lt l₀ L j → L.get? j = l₀.get? j
  wacc : w = diffCount l₀ L
  trw : ∀ j, writesAt tr j = if L.get? j ≠ l₀.get? j then 1 else 0


/-! ### Basic facts about `are_equal` and strict weak orderings -/

theorem are_equal_true_iff {is_less : α → α → Bool} {a b : α} :
    are_equal is_less a b = true ↔ is_less a b = false ∧ is_less b a = false := by
  simp [are_equal]

theorem are_equal_false_iff {is_less : α → α → Bool} {a b : α} :
    are_equal is_less a b = false ↔ is_less a b = true ∨ is_less b a = true := by
  cases h1 : is_less a b <;> cases h2 : is_less b a <;> simp [are_equal, h1, h2]

theorem are_equal_comm (is_less : α → α → Bool) (a b : α) :
    are_equal is_less a b = are_equal is_less b a := by
  simp [are_equal, Bool.and_comm]

theorem IsSWO.are_equal_self {lt : α → α → Bool} (h : IsSWO lt) (a : α) :
    are_equal lt a a = true :=
  are_equal_true_iff.mpr ⟨h.irrefl a, h.irrefl a⟩

theorem IsSWO.asymm {lt : α → α → Bool} (h : IsSWO lt) {a b : α} (hab : lt a b = true) :
    lt b a = false := by
  by_contra hba
  have hba' : lt b a = true := by revert hba; cases lt b a <;> simp
  have := h.lt_trans a b a hab hba'
  rw [h.irrefl a] at this
  exact absurd this (by simp)

theorem IsSWO.lt_of_lt_of_eqv {lt : α → α → Bool} (h : IsSWO lt) {a b c : α}
    (hab : lt a b = true) (hbc : are_equal lt b c = true) : lt a c = true := by
  by_contra hac
  have hac' : lt a c = false := by revert hac; cases lt a c <;> simp
  obtain ⟨hbc1, hcb1⟩ := are_equal_true_iff.mp hbc
  have hca : lt c a = false := by
    by_contra hca
    have hca' : lt c a = true := by revert hca; cases lt c a <;> simp
    have := h.lt_trans c a b hca' hab
    rw [hcb1] at this
    exact absurd this (by simp)
  have heac : are_equal lt a c = true := are_equal_true_iff.mpr ⟨hac', hca⟩
  have hecb : are_equal lt c b = true := by rw [are_equal_comm]; exact hbc
  have := h.incomp_trans a c b heac hecb
  obtain ⟨h1, _⟩ := are_equal_true_iff.mp this
  rw [hab] at h1
  exact absurd h1 (by simp)

theorem IsSWO.lt_of_eqv_of_lt {lt : α → α → Bool} (h : IsSWO lt) {a b c : α}
    (hab : are_equal lt a b = true) (hbc : lt b c = true) : lt a c = true := by
  by_contra hac
  have hac' : lt a c = false := by revert hac; cases lt a c <;> simp
  have hca : lt c a = false := by
    by_contra hca
    have hca' : lt c a = true := by revert hca; cases lt c a <;> simp
    have := h.lt_trans b c a hbc hca'
    obtain ⟨_, h2⟩ := are_equal_true_iff.mp hab
    rw [h2] at this
    exact absurd this (by simp)
  have heac : are_equal lt a c = true := are_equal_true_iff.mpr ⟨hac', hca⟩
  have heba : are_equal lt b a = true := by rw [are_equal_comm]; exact hab
  have := h.incomp_trans b a c heba heac
  obtain ⟨h1, _⟩ := are_equal_true_iff.mp this
  rw [hbc] at h1
  exact absurd h1 (by simp)

theorem IsSWO.lt_or_lt_of_lt {lt : α → α → Bool} (h : IsSWO lt) {a c : α}
    (hca : lt c a = true) (b : α) : lt c b = true ∨ lt b a = true := by
  by_contra hcon
  push_neg at hcon
  obtain ⟨h1, h2⟩ := hcon
  have h1' : lt c b = false := by revert h1; cases lt c b <;> simp
  have h2' : lt b a = false := by revert h2; cases lt b a <;> simp
  have hbc : lt b c = false := by
    by_contra hbc
    have hbc' : lt b c = true := by revert hbc; cases lt b c <;> simp
    have := h.lt_trans b c a hbc' hca
    rw [h2'] at this
    exact absurd this (by simp)
  have : lt b a = true :=
    h.lt_of_eqv_of_lt (are_equal_true_iff.mpr ⟨hbc, h1'⟩) hca
  rw [h2'] at this
  exact absurd this (by simp)

theorem IsSWO.le_trans {lt : α → α → Bool} (h : IsSWO lt) {a b c : α}
    (hzx : lt c b = false) (hyz : lt b a = false) : lt c a = false := by
  by_contra hca
  have hca' : lt c a = true := by revert hca; cases lt c a <;> simp
  rcases h.lt_or_lt_of_lt hca' b with h1 | h1
  · rw [hzx] at h1; exact absurd h1 (by simp)
  · rw [hyz] at h1; exact absurd h1 (by simp)

/-! ### Counting helper lemmas -/

theorem countP_partition {p q : α → Bool} {l : List α}
    (h : ∀ x ∈ l, (p x = true ∨ q x = true) ∧ ¬(p x = true ∧ q x = true)) :
    l.countP p + l.countP q = l.length := by
  induction l with
  | nil => simp
  | cons a l ih =>
    have ha := h a (by simp)
    have ih' := ih (fun x hx => h x (by simp [hx]))
    rcases ha with ⟨hor, hnand⟩
    rcases hor with h1 | h1
    · have h2 : q a = false := by
        cases hq : q a
        · rfl
        · exact absurd ⟨h1, hq⟩ hnand
      rw [List.countP_cons_of_pos _ _ h1, List.countP_cons_of_neg _ _ (by simp [h2]),
        List.length_cons]
      omega
    · have h2 : p a = false := by
        cases hp : p a
        · rfl
        · exact absurd ⟨hp, h1⟩ hnand
      rw [List.countP_cons_of_neg _ _ (by simp [h2]), List.countP_cons_of_pos _ _ h1,
        List.length_cons]
      omega

theorem countP_two_le {p q r : α → Bool} {l : List α}
    (hp : ∀ x ∈ l, p x = true → r x = true) (hq : ∀ x ∈ l, q x = true → r x = true)
    (hpq : ∀ x ∈ l, ¬(p x = true ∧ q x = true)) :
    l.countP p + l.countP q ≤ l.countP r := by
  induction l with
  | nil => simp
  | cons a l ih =>
    have ih' := ih (fun x hx => hp x (by simp [hx])) (fun x hx => hq x (by simp [hx]))
      (fun x hx => hpq x (by simp [hx]))
    rcases hpa : p a with _ | _ <;> rcases hqa : q a with _ | _
    · rw [List.countP_cons_of_neg _ _ (by simp [hpa]), List.countP_cons_of_neg _ _ (by simp [hqa])]
      calc l.countP p + l.countP q ≤ l.countP r := ih'
        _ ≤ (a :: l).countP r := (List.sublist_cons_self a l).countP_le r
    · have hra := hq a (by simp) hqa
      rw [List.countP_cons_of_neg _ _ (by simp [hpa]), List.countP_cons_of_pos _ _ hqa,
        List.countP_cons_of_pos _ _ hra]
      omega
    · have hra := hp a (by simp) hpa
      rw [List.countP_cons_of_pos _ _ hpa, List.countP_cons_of_neg _ _ (by simp [hqa]),
        List.countP_cons_of_pos _ _ hra]
      omega
    · exact absurd ⟨hpa, hqa⟩ (hpq a (by simp))

theorem countP_update {f g : Nat → Bool} {L : List Nat} {d : Nat} (hd : d ∈ L)
    (hnd : L.Nodup) (hfd : f d = true) (hgd : g d = false)
    (h : ∀ x ∈ L, x ≠ d → f x = g x) :
    L.countP f = L.countP g + 1 := by
  induction L with
  | nil => simp at hd
  | cons a L ih =>
    rw [List.countP_cons, List.countP_cons]
    rcases List.mem_cons.mp hd with rfl | hd'
    · have hnotin : d ∉ L := (List.nodup_cons.mp hnd).1
      have hsame : L.countP f = L.countP g := by
        apply List.countP_congr
        intro x hx
        have : x ≠ d := fun he => hnotin (he ▸ hx)
        rw [h x (by simp [hx]) this]
      rw [hsame, hfd, hgd]
      simp
    · have hne : a ≠ d := by
        intro he
        exact (List.nodup_cons.mp hnd).1 (he ▸ hd')
      have ha : f a = g a := h a (by simp) hne
      have := ih hd' (List.nodup_cons.mp hnd).2 (fun x hx hxd => h x (by simp [hx]) hxd)
      rw [ha, this]
      omega

/-! ### List index and slicing helper lemmas -/

theorem get?_set_self {l : List α} {d : Nat} (hd : d < l.length) (v : α) :
    (l.set d v).get? d = some v := by
  rw [List.get?_set_eq]
  rcases hx : l.get? d with _ | x
  · rw [List.get?_eq_none] at hx; omega
  · simp

theorem take_set_of_le {l : List α} (v : α) {s d : Nat} (h : s ≤ d) :
    (l.set d v).take s = l.take s := by
  apply List.ext_get?
  intro n
  by_cases hn : n < s
  · rw [List.get?_take hn, List.get?_take hn, List.get?_set_ne]
    omega
  · have h1 : ((l.set d v).take s).get? n = none := by
      rw [List.get?_eq_none, List.length_take, List.length_set]
      omega
    have h2 : (l.take s).get? n = none := by
      rw [List.get?_eq_none, List.length_take]
      omega
    rw [h1, h2]

theorem drop_set_cons {l : List α} {s : Nat} (h : s < l.length) (v : α) :
    (l.set s v).drop s = v :: l.drop (s + 1) := by
  apply List.ext_get?
  intro n
  cases n with
  | zero =>
    rw [List.get?_drop]
    simpa using get?_set_self h v
  | succ n =>
    rw [List.get?_drop, List.get?_cons_succ, List.get?_drop, List.get?_set_ne _ _ (by omega)]
    congr 1
    omega

theorem drop_succ_set_of_lt {l : List α} {s d : Nat} (h : s < d) (v : α) :
    (l.set d v).drop (s + 1) = (l.drop (s + 1)).set (d - (s + 1)) v := by
  rw [List.drop_set]
  split
  · omega
  · rfl

theorem drop_set_of_gt {l : List α} {s d : Nat} (h : d < s) (v : α) :
    (l.set d v).drop s = l.drop s := by
  rw [List.drop_set]
  split
  · rfl
  · omega

theorem set_eq_take_cons_drop {l : List α} {d : Nat} {x : α} (h : l.get? d = some x) (v : α) :
    l.set d v = l.take d ++ v :: l.drop (d + 1) := by
  obtain ⟨hd, _⟩ := List.get?_eq_some.mp h
  apply List.ext_get?
  intro n
  rcases Nat.lt_trichotomy n d with hn | rfl | hn
  · rw [List.get?_set_ne _ _ (by omega), List.get?_append (by rw [List.length_take]; omega),
      List.get?_take hn]
  · rw [get?_set_self hd v]
    have hlt : (l.take n).length = n := by rw [List.length_take]; omega
    rw [List.get?_append_right (by omega), hlt]
    simp
  · have hlt : (l.take d).length = d := by rw [List.length_take]; omega
    rw [List.get?_set_ne _ _ (by omega), List.get?_append_right (by omega), hlt]
    have h2 : n - d = (n - d - 1) + 1 := by omega
    rw [h2]
    simp only [List.get?_cons_succ]
    rw [List.get?_drop]
    congr 1
    omega

theorem eq_take_cons_drop {l : List α} {d : Nat} {x : α} (h : l.get? d = some x) :
    l = l.take d ++ x :: l.drop (d + 1) := by
  obtain ⟨hd, hg⟩ := List.get?_eq_some.mp h
  conv_lhs => rw [← List.take_append_drop d l]
  congr 1
  rw [List.drop_eq_get_cons hd, hg]

theorem perm_cons_set {l : List α} {d : Nat} {x v : α} (h : l.get? d = some x) :
    (x :: l.set d v).Perm (v :: l) := by
  rw [set_eq_take_cons_drop h v]
  conv_rhs => rw [eq_take_cons_drop h]
  refine List.Perm.trans (List.Perm.cons x List.perm_middle) ?_
  refine List.Perm.trans (List.Perm.swap v x _) ?_
  exact List.Perm.cons v List.perm_middle.symm

theorem mem_take_get? {a : α} : ∀ {X : List α} {t : Nat}, a ∈ X.take t →
    ∃ i, i < t ∧ X.get? i = some a := by
  intro X
  induction X with
  | nil => intro t h; simp at h
  | cons x xs ih =>
    intro t h
    cases t with
    | zero => simp at h
    | succ t =>
      rw [List.take_succ_cons] at h
      rcases List.mem_cons.mp h with rfl | h'
      · exact ⟨0, by omega, rfl⟩
      · obtain ⟨i, hi, hg⟩ := ih h'
        exact ⟨i + 1, by omega, hg⟩

theorem mem_take_of_get? {a : α} {X : List α} {i t : Nat} (h : X.get? i = some a)
    (hit : i < t) : a ∈ X.take t := by
  have : (X.take t).get? i = some a := by rw [List.get?_take hit]; exact h
  exact List.get?_mem this

theorem mem_drop_of_get? {a : α} {X : List α} {i s : Nat} (h : X.get? i = some a)
    (hs : s ≤ i) : a ∈ X.drop s := by
  have : (X.drop s).get? (i - s) = some a := by
    rw [List.get?_drop]
    have : s + (i - s) = i := by omega
    rw [this]; exact h
  exact List.get?_mem this

theorem mem_drop_succ {a : α} {X : List α} {s : Nat} (h : a ∈ X.drop (s + 1)) :
    a ∈ X.drop s := by
  have h1 : X.drop (s + 1) = (X.drop s).drop 1 := by rw [List.drop_drop]
  rw [h1] at h
  exact (List.drop_subset _ _) h

theorem get?_eq_of_take_eq {A B : List α} {s j : Nat} (h : A.take s = B.take s)
    (hj : j < s) : A.get? j = B.get? j := by
  have h1 : (A.take s).get? j = (B.take s).get? j := by rw [h]
  rwa [List.get?_take hj, List.get?_take hj] at h1

theorem mem_take_succ {a : α} {X : List α} {s : Nat} (h : a ∈ X.take (s + 1)) :
    a ∈ X.take s ∨ X.get? s = some a := by
  obtain ⟨i, hi, hg⟩ := mem_take_get? h
  rcases Nat.lt_or_ge i s with hi' | hi'
  · exact Or.inl (mem_take_of_get? hg hi')
  · have : i = s := by omega
    exact Or.inr (this ▸ hg)

/-! ### Facts about the duplicate-skip loop -/

theorem skipDupGo_eq_none {lt : α → α → Bool} {tmp : α} :
    ∀ {rest : List α} {d : Nat}, skipDupGo lt tmp rest d = none →
      ∀ x ∈ rest, are_equal lt tmp x = true := by
  intro rest
  induction rest with
  | nil => intro d _ x hx; simp at hx
  | cons a rest ih =>
    intro d h x hx
    rw [skipDupGo] at h
    split at h
    · rcases List.mem_cons.mp hx with rfl | hx'
      · assumption
      · exact ih h x hx'
    · exact absurd h (by simp)

theorem skipDupGo_eq_some {lt : α → α → Bool} {tmp : α} :
    ∀ {rest : List α} {d e : Nat}, skipDupGo lt tmp rest d = some e →
      d ≤ e ∧ e - d < rest.length ∧
      (∀ i, i < e - d → ∀ y, rest.get? i = some y → are_equal lt tmp y = true) ∧
      (∃ x, rest.get? (e - d) = some x ∧ are_equal lt tmp x = false) := by
  intro rest
  induction rest with
  | nil => intro d e h; exact absurd h (by simp [skipDupGo])
  | cons a rest ih =>
    intro d e h
    rw [skipDupGo] at h
    split at h
    · obtain ⟨h1, h2, h3, x, hx1, hx2⟩ := ih h
      have hde : d < e := by omega
      have hed : e - d = (e - (d + 1)) + 1 := by omega
      refine ⟨by omega, by rw [List.length_cons]; omega, ?_, ?_⟩
      · intro i hi y hy
        cases i with
        | zero =>
          rw [List.get?_cons_zero] at hy
          cases hy
          assumption
        | succ i =>
          rw [List.get?_cons_succ] at hy
          exact h3 i (by omega) y hy
      · rw [hed, List.get?_cons_succ]
        exact ⟨x, hx1, hx2⟩
    · cases h
      refine ⟨Nat.le_refl _, by simp, ?_, ⟨a, by simp, ?_⟩⟩
      · intro i hi
        omega
      · rename_i hq
        revert hq
        cases are_equal lt tmp a <;> simp

theorem skipDup_eq_some {lt : α → α → Bool} {l : List α} {tmp : α} {c e : Nat}
    (h : skipDup lt l tmp c = some e) :
    c ≤ e ∧ e < l.length ∧
    (∀ j, c ≤ j → j < e → ∀ y, l.get? j = some y → are_equal lt tmp y = true) ∧
    (∃ x, l.get? e = some x ∧ are_equal lt tmp x = false) := by
  obtain ⟨h1, h2, h3, x, hx1, hx2⟩ := skipDupGo_eq_some h
  rw [List.length_drop] at h2
  have he : e < l.length := by omega
  refine ⟨h1, he, ?_, ?_⟩
  · intro j hj1 hj2 y hy
    refine h3 (j - c) (by omega) y ?_
    rw [List.get?_drop]
    have : c + (j - c) = j := by omega
    rw [this]
    exact hy
  · refine ⟨x, ?_, hx2⟩
    rw [List.get?_drop] at hx1
    have : c + (e - c) = e := by omega
    rw [this] at hx1
    exact hx1

theorem skipDup_ne_none_of_blocker {lt : α → α → Bool} {l : List α} {tmp : α} {c : Nat}
    (hb : ∃ j x, c ≤ j ∧ l.get? j = some x ∧ are_equal lt tmp x = false) :
    skipDup lt l tmp c ≠ none := by
  intro hnone
  obtain ⟨j, x, hj, hx, hne⟩ := hb
  have hmem : x ∈ l.drop c := mem_drop_of_get? hx hj
  have := skipDupGo_eq_none hnone x hmem
  rw [hne] at this
  exact absurd this (by simp)

theorem skipDup_ne_none_of_count {lt : α → α → Bool} {l : List α} {tmp : α} {s : Nat}
    (hgt : 0 < countLess lt l s tmp) :
    skipDup lt l tmp (s + countLess lt l s tmp) ≠ none := by
  intro hnone
  have hall : ∀ x ∈ l.drop (s + countLess lt l s tmp), are_equal lt tmp x = true :=
    skipDupGo_eq_none hnone
  have hzero : (l.drop (s + countLess lt l s tmp)).countP (fun x => lt x tmp) = 0 := by
    rw [List.countP_eq_zero]
    intro a ha
    obtain ⟨_, h2⟩ := are_equal_true_iff.mp (hall a ha)
    simp [h2]
  have hsplit : l.drop (s + 1) =
      (l.drop (s + 1)).take (countLess lt l s tmp - 1) ++
        l.drop (s + countLess lt l s tmp) := by
    have h1 : l.drop (s + countLess lt l s tmp) =
        (l.drop (s + 1)).drop (countLess lt l s tmp - 1) := by
      rw [List.drop_drop]
      congr 1
      omega
    rw [h1, List.take_append_drop]
  have hkey : countLess lt l s tmp =
      ((l.drop (s + 1)).take (countLess lt l s tmp - 1)).countP (fun x => lt x tmp) + 0 := by
    conv_lhs => rw [countLess, hsplit]
    rw [List.countP_append, hzero]
  have hle := List.countP_le_length (p := fun x => lt x tmp)
    (l := (l.drop (s + 1)).take (countLess lt l s tmp - 1))
  rw [List.length_take] at hle
  omega

/-! ### Facts about traces, `writesAt` and `diffCount` -/

theorem writesAt_append (t1 t2 : List Ev) (j : Nat) :
    writesAt (t1 ++ t2) j = writesAt t1 j + writesAt t2 j :=
  List.countP_append _ t1 t2

theorem writesAt_nil (j : Nat) : writesAt [] j = 0 := rfl

theorem writesAt_readsRange (a n j : Nat) : writesAt (readsRange a n) j = 0 := by
  rw [writesAt, List.countP_eq_zero]
  intro e he
  rw [readsRange] at he
  obtain ⟨i, _, rfl⟩ := List.mem_map.mp he
  simp

theorem writesAt_close (s j : Nat) : writesAt [Ev.close s] j = 0 := by
  rw [writesAt, List.countP_eq_zero]
  intro e he
  rcases List.mem_singleton.mp he with rfl
  simp

theorem writesAt_write (d j : Nat) :
    writesAt [Ev.write d] j = if j = d then 1 else 0 := by
  rw [writesAt]
  by_cases h : j = d
  · subst h; simp
  · rw [if_neg h]
    rw [List.countP_eq_zero]
    intro e he
    rcases List.mem_singleton.mp he with rfl
    simp
    omega

theorem diffCount_self [DecidableEq α] (l : List α) : diffCount l l = 0 := by
  rw [diffCount, List.countP_eq_zero]
  intro a _
  simp

theorem diffCount_set [DecidableEq α] {l₀ l : List α} (hlen : l.length = l₀.length)
    {d : Nat} (hd : d < l.length) (hsame : l.get? d = l₀.get? d) {v : α}
    (hv : l₀.get? d ≠ some v) :
    diffCount l₀ (l.set d v) = diffCount l₀ l + 1 := by
  rw [diffCount, diffCount]
  have hdmem : d ∈ List.range l₀.length := by
    rw [List.mem_range]
    omega
  refine countP_update hdmem (List.nodup_range _) ?_ ?_ ?_
  · have hs : (l.set d v).get? d = some v := get?_set_self hd v
    simp only [hs]
    simpa using hv
  · rw [← hsame]
    simp
  · intro x _ hx
    have hns : (l.set d v).get? x = l.get? x := List.get?_set_ne _ _ (fun he => hx he.symm)
    simp only [List.get?_eq_getElem?] at hns
    simp [hns]

/-! ### Rank and happiness lemmas -/

theorem rankLt_congr {lt : α → α → Bool} (h : IsSWO lt) {x y : α} (l₀ : List α)
    (hxy : are_equal lt x y = true) : rankLt lt l₀ x = rankLt lt l₀ y := by
  apply List.countP_congr
  intro z _
  constructor
  · intro hz
    exact h.lt_of_lt_of_eqv hz hxy
  · intro hz
    exact h.lt_of_lt_of_eqv hz (by rwa [are_equal_comm])

theorem rank_home_disjoint {lt : α → α → Bool} (h : IsSWO lt) (l₀ : List α) {x x' : α}
    (hlt : lt x' x = true) :
    rankLt lt l₀ x' + rankEq lt l₀ x' ≤ rankLt lt l₀ x := by
  rw [rankLt, rankLt, rankEq]
  apply countP_two_le
  · intro z _ hz
    exact h.lt_trans z x' x hz hlt
  · intro z _ hz
    exact h.lt_of_eqv_of_lt (by rwa [are_equal_comm]) hlt
  · intro z _ hpq
    obtain ⟨h1, h2⟩ := hpq
    obtain ⟨_, h4⟩ := are_equal_true_iff.mp h2
    rw [h1] at h4
    exact absurd h4 (by simp)

theorem not_lt_of_happy_pair {lt : α → α → Bool} (h : IsSWO lt) {l₀ l : List α}
    {j j' : Nat} (hjj : j < j') (h1 : Happy lt l₀ l j) (h2 : Happy lt l₀ l j')
    {x x' : α} (hx : l.get? j = some x) (hx' : l.get? j' = some x') :
    lt x' x = false := by
  by_contra hcon
  have hlt : lt x' x = true := by revert hcon; cases lt x' x <;> simp
  obtain ⟨a, ha, ha1, ha2⟩ := h1
  obtain ⟨b, hb, hb1, hb2⟩ := h2
  rw [hx] at ha; cases ha
  rw [hx'] at hb; cases hb
  have := rank_home_disjoint h l₀ hlt
  omega

theorem happy_congr_get? {lt : α → α → Bool} {l₀ A B : List α} {j : Nat}
    (h : A.get? j = B.get? j) : Happy lt l₀ A j ↔ Happy lt l₀ B j := by
  constructor <;> intro ⟨x, hx, hr⟩
  · exact ⟨x, by rw [← h]; exact hx, hr⟩
  · exact ⟨x, by rw [h]; exact hx, hr⟩

/-! ### Sortedness characterizations -/

theorem is_sorted_iff_get? {lt : α → α → Bool} :
    ∀ {l : List α}, is_sorted lt l = true ↔
      ∀ i x y, l.get? i = some x → l.get? (i + 1) = some y → lt y x = false := by
  intro l
  induction l with
  | nil =>
    simp only [is_sorted]
    constructor
    · intro _ i x y hx _
      exact absurd hx (by simp)
    · intro _
      trivial
  | cons a l ih =>
    cases l with
    | nil =>
      simp only [is_sorted]
      constructor
      · intro _ i x y hx hy
        cases i with
        | zero => exact absurd hy (by simp)
        | succ i => exact absurd hx (by simp)
      · intro _
        trivial
    | cons b l =>
      rw [is_sorted, Bool.and_eq_true]
      constructor
      · intro ⟨hab, hrest⟩ i x y hx hy
        cases i with
        | zero =>
          rw [List.get?_cons_zero] at hx
          rw [List.get?_cons_succ, List.get?_cons_zero] at hy
          cases hx; cases hy
          revert hab
          cases lt b a <;> simp
        | succ i =>
          rw [List.get?_cons_succ] at hx hy
          exact ih.mp hrest i x y hx hy
      · intro hall
        constructor
        · have := hall 0 a b (by simp) (by simp)
          rw [this]
          rfl
        · rw [ih]
          intro i x y hx hy
          exact hall (i + 1) x y (by rwa [List.get?_cons_succ]) (by rwa [List.get?_cons_succ])

theorem sorted_get?_le {lt : α → α → Bool} (h : IsSWO lt) {l : List α}
    (hs : is_sorted lt l = true) :
    ∀ d i x y, l.get? i = some x → l.get? (i + d) = some y → lt y x = false := by
  intro d
  induction d with
  | zero =>
    intro i x y hx hy
    rw [Nat.add_zero, hx] at hy
    cases hy
    exact h.irrefl x
  | succ d ih =>
    intro i x y hx hy
    have hlen : i + d < l.length := by
      obtain ⟨hd, _⟩ := List.get?_eq_some.mp hy
      omega
    rcases hz : l.get? (i + d) with _ | z
    · rw [List.get?_eq_none] at hz
      omega
    · have h1 : lt z x = false := ih i x z hx hz
      have h2 : lt y z = false := is_sorted_iff_get?.mp hs (i + d) z y hz (by rwa [Nat.add_assoc])
      exact h.le_trans h2 h1

/-! ### The unhappy-position measure -/

theorem unhappyB_iff {lt : α → α → Bool} {l₀ l : List α} {j : Nat} {x : α}
    (hx : l.get? j = some x) :
    unhappyB lt l₀ l j = true ↔ ¬ Happy lt l₀ l j := by
  rw [unhappyB, hx]
  show (!(decide (rankLt lt l₀ x ≤ j) && decide (j < rankLt lt l₀ x + rankEq lt l₀ x))) = true ↔
    ¬ Happy lt l₀ l j
  rcases hcase : decide (rankLt lt l₀ x ≤ j) && decide (j < rankLt lt l₀ x + rankEq lt l₀ x)
    with _ | _
  · simp only [Bool.not_false]
    constructor
    · intro _ hH
      obtain ⟨y, hy, hr1, hr2⟩ := hH
      rw [hx] at hy
      cases hy
      have hc : (decide (rankLt lt l₀ x ≤ j) &&
          decide (j < rankLt lt l₀ x + rankEq lt l₀ x)) = true := by
        rw [Bool.and_eq_true]
        exact ⟨decide_eq_true hr1, decide_eq_true hr2⟩
      rw [hcase] at hc
      exact absurd hc (by simp)
    · intro _
      trivial
  · simp only [Bool.not_true]
    constructor
    · intro hfalse
      exact absurd hfalse (by simp)
    · intro hh
      rw [Bool.and_eq_true] at hcase
      exact ((hh ⟨x, hx, of_decide_eq_true hcase.1, of_decide_eq_true hcase.2⟩).elim)

theorem unhappyB_congr {lt : α → α → Bool} {l₀ A B : List α} {j : Nat}
    (h : A.get? j = B.get? j) : unhappyB lt l₀ A j = unhappyB lt l₀ B j := by
  rw [unhappyB, unhappyB, h]

theorem unhappyCount_le (lt : α → α → Bool) (l₀ l : List α) (s : Nat) :
    unhappyCount lt l₀ l s ≤ l.length := by
  rw [unhappyCount]
  have h1 := List.countP_le_length (unhappyB lt l₀ l)
    (l := List.range' (s + 1) (l.length - (s + 1)))
  rw [List.length_range'] at h1
  omega

theorem unhappyCount_set_decrement {lt : α → α → Bool} {l₀ l : List α} {s d : Nat} {v : α}
    (hd1 : s + 1 ≤ d) (hd2 : d < l.length)
    (hunh : unhappyB lt l₀ l d = true) (hhap : unhappyB lt l₀ (l.set d v) d = false) :
    unhappyCount lt l₀ l s = unhappyCount lt l₀ (l.set d v) s + 1 := by
  rw [unhappyCount, unhappyCount, List.length_set]
  have hdmem : d ∈ List.range' (s + 1) (l.length - (s + 1)) := by
    rw [List.mem_range']
    exact ⟨d - (s + 1), by omega, by omega⟩
  refine countP_update hdmem (List.nodup_range' _ _) hunh hhap ?_
  intro x _ hx
  exact (unhappyB_congr (List.get?_set_ne _ _ (fun he => hx he.symm))).symm

/-! ### One-step unfolding equations for the interpreter loops -/

theorem cycleLoop_zero (lt : α → α → Bool) (src : Nat) (l : List α) (tmp : α)
    (dst w : Nat) (tr : List Ev) : cycleLoop lt src 0 l tmp dst w tr = .fuel := by
  rw [cycleLoop]

theorem cycleLoop_closed {lt : α → α → Bool} {src fuel : Nat} {l : List α} {tmp : α}
    {dst w : Nat} {tr : List Ev} (hd : dst = src) :
    cycleLoop lt src (fuel + 1) l tmp dst w tr = .ok l w tr := by
  rw [cycleLoop, if_pos hd]

theorem cycleLoop_step {lt : α → α → Bool} {src fuel : Nat} {l : List α} {tmp : α}
    {dst w : Nat} {tr : List Ev} {e : Nat} {x : α} (hd : dst ≠ src)
    (hskip : skipDup lt l tmp (src + countLess lt l src tmp) = some e)
    (hx : l.get? e = some x) :
    cycleLoop lt src (fuel + 1) l tmp dst w tr =
      cycleLoop lt src fuel (l.set e tmp) x e (w + 1)
        (tr ++ readsRange (src + 1) l.length ++
          readsRange (src + countLess lt l src tmp) (e + 1) ++ [Ev.write e]) := by
  simp only [cycleLoop, if_neg hd, hskip, hx]

theorem cycleLoop_step_panic {lt : α → α → Bool} {src fuel : Nat} {l : List α} {tmp : α}
    {dst w : Nat} {tr : List Ev} (hd : dst ≠ src)
    (hskip : skipDup lt l tmp (src + countLess lt l src tmp) = none) :
    cycleLoop lt src (fuel + 1) l tmp dst w tr = .panic := by
  simp only [cycleLoop, if_neg hd, hskip]

theorem outerLoop_zero (lt : α → α → Bool) (fuel src : Nat) (l : List α) (w : Nat)
    (tr : List Ev) : outerLoop lt fuel 0 src l w tr = .ok l w tr := by
  rw [outerLoop]

theorem outerLoop_step_noop {lt : α → α → Bool} {fuel k src : Nat} {l : List α} {tmp : α}
    {w : Nat} {tr : List Ev} (hg : l.get? src = some tmp)
    (hce : src + countLess lt l src tmp = src) :
    outerLoop lt fuel (k + 1) src l w tr =
      outerLoop lt fuel k (src + 1) l w (tr ++ readsRange (src + 1) l.length) := by
  simp only [outerLoop, hg, if_pos hce]

theorem outerLoop_step_cycle {lt : α → α → Bool} {fuel k src : Nat} {l : List α} {tmp : α}
    {w : Nat} {tr : List Ev} {e : Nat} {x : α} (hg : l.get? src = some tmp)
    (hce : ¬ src + countLess lt l src tmp = src)
    (hskip : skipDup lt l tmp (src + countLess lt l src tmp) = some e)
    (hx : l.get? e = some x) :
    outerLoop lt fuel (k + 1) src l w tr =
      match cycleLoop lt src fuel (l.set e tmp) x e (w + 1)
          (tr ++ readsRange (src + 1) l.length ++
            readsRange (src + countLess lt l src tmp) (e + 1) ++ [Ev.write e]) with
      | .ok l' w' tr' => outerLoop lt fuel k (src + 1) l' w' (tr' ++ [Ev.close src])
      | r => r := by
  simp only [outerLoop, hg, if_neg hce, hskip, hx]


/-! ### Static rank facts relative to an outer iteration -/

theorem rankLt_split (lt : α → α → Bool) {L l₀ : List α} (hperm : L.Perm l₀) (s : Nat)
    (x : α) :
    rankLt lt l₀ x =
      (L.take s).countP (fun y => lt y x) + (L.drop s).countP (fun y => lt y x) := by
  rw [rankLt, ← hperm.countP_eq]
  conv_lhs => rw [← List.take_append_drop s L]
  rw [List.countP_append]

theorem rankEq_split (lt : α → α → Bool) {L l₀ : List α} (hperm : L.Perm l₀) (s : Nat)
    (x : α) :
    rankEq lt l₀ x =
      (L.take s).countP (fun y => are_equal lt x y) +
        (L.drop s).countP (fun y => are_equal lt x y) := by
  rw [rankEq, ← hperm.countP_eq]
  conv_lhs => rw [← List.take_append_drop s L]
  rw [List.countP_append]

theorem pref_partition {lt : α → α → Bool} {L : List α} {s : Nat} (hs : s ≤ L.length)
    {x : α} (hx : ∀ y ∈ L.take s, lt x y = false) :
    (L.take s).countP (fun y => lt y x) + (L.take s).countP (fun y => are_equal lt x y)
      = s := by
  have := countP_partition (p := fun y => lt y x) (q := fun y => are_equal lt x y)
    (l := L.take s) ?_
  · rwa [List.length_take, Nat.min_eq_left hs] at this
  · intro y hy
    constructor
    · cases hl : lt y x
      · refine Or.inr ?_
        show are_equal lt x y = true
        rw [are_equal_true_iff]
        exact ⟨hx y hy, hl⟩
      · exact Or.inl hl
    · intro ⟨h1, h2⟩
      have h1' : lt y x = true := h1
      have h2' : are_equal lt x y = true := h2
      obtain ⟨_, h4⟩ := are_equal_true_iff.mp h2'
      rw [h1'] at h4
      exact absurd h4 (by simp)

theorem happy_of_suffix_bounds {lt : α → α → Bool} {L l₀ : List α} {s : Nat}
    (hperm : L.Perm l₀) (hs : s ≤ L.length) {x : α}
    (hx : ∀ y ∈ L.take s, lt x y = false) {j : Nat}
    (hlow : s + (L.drop s).countP (fun y => lt y x) ≤ j)
    (hhigh : j < s + (L.drop s).countP (fun y => lt y x) +
      (L.drop s).countP (fun y => are_equal lt x y)) :
    rankLt lt l₀ x ≤ j ∧ j < rankLt lt l₀ x + rankEq lt l₀ x := by
  have hsplit1 := rankLt_split lt hperm s x
  have hsplit2 := rankEq_split lt hperm s x
  have hpart := pref_partition hs hx
  have hple : (L.take s).countP (fun y => lt y x) ≤ s := by
    have := List.countP_le_length (fun y => lt y x) (l := L.take s)
    rw [List.length_take, Nat.min_eq_left hs] at this
    exact this
  omega

theorem unhappy_of_suffix_lt {lt : α → α → Bool} (hswo : IsSWO lt) {L l₀ : List α}
    {s : Nat} (hperm : L.Perm l₀) (hs : s ≤ L.length)
    (hps : ∀ x ∈ L.take s, ∀ y ∈ L.drop s, lt y x = false) {z : α}
    (hz : ∀ y ∈ L.take s, lt z y = false)
    (hbs : 0 < (L.drop s).countP (fun y => lt y z)) :
    s < rankLt lt l₀ z := by
  have hpe : (L.take s).countP (fun y => are_equal lt z y) = 0 := by
    rw [List.countP_eq_zero]
    intro y hy hcon
    obtain ⟨u, hu, hlt⟩ := List.countP_pos.mp hbs
    have : lt u y = true := hswo.lt_of_lt_of_eqv (by simpa using hlt) (by simpa using hcon)
    have h0 := hps y hy u hu
    rw [h0] at this
    exact absurd this (by simp)
  have hpart := pref_partition hs hz
  have hsplit1 := rankLt_split lt hperm s z
  omega

theorem eqv_countP_congr {lt : α → α → Bool} (hswo : IsSWO lt) {x y : α}
    (hxy : are_equal lt x y = true) (M : List α) :
    M.countP (fun z => lt z x) = M.countP (fun z => lt z y) := by
  apply List.countP_congr
  intro z _
  constructor
  · intro hz
    exact hswo.lt_of_lt_of_eqv hz hxy
  · intro hz
    exact hswo.lt_of_lt_of_eqv hz (by rwa [are_equal_comm])

theorem skip_segment_le {lt : α → α → Bool} {l : List α} {tmp : α} {s c e : Nat}
    (hc1 : s + 1 ≤ c) (hce : c ≤ e) (he : e < l.length)
    (hseg : ∀ j, c ≤ j → j < e → ∀ y, l.get? j = some y → are_equal lt tmp y = true) :
    e - c ≤ (l.drop (s + 1)).countP (fun y => are_equal lt tmp y) := by
  have hseglen : ((l.drop c).take (e - c)).length = e - c := by
    rw [List.length_take, List.length_drop]
    omega
  have hsegall : ((l.drop c).take (e - c)).countP (fun y => are_equal lt tmp y) =
      ((l.drop c).take (e - c)).length := by
    rw [List.countP_eq_length]
    intro a ha
    obtain ⟨i, hi, hg⟩ := mem_take_get? ha
    rw [List.get?_drop] at hg
    exact hseg (c + i) (by omega) (by omega) a hg
  have hsub : ((l.drop c).take (e - c)).Sublist (l.drop (s + 1)) := by
    have hdd : l.drop c = (l.drop (s + 1)).drop (c - (s + 1)) := by
      rw [List.drop_drop]
      congr 1
      omega
    rw [hdd]
    exact (List.take_sublist _ _).trans (List.drop_sublist _ _)
  have := hsub.countP_le (fun y => are_equal lt tmp y)
  omega


/-! ### The cycle loop under a strict weak ordering -/

theorem trw_update [DecidableEq α] {l₀ l : List α} {tr : List Ev} {e : Nat} {v : α}
    (he : e < l.length) (hsame : l.get? e = l₀.get? e) (hv : l₀.get? e ≠ some v)
    (htrw : ∀ j, writesAt tr j = if l.get? j ≠ l₀.get? j then 1 else 0)
    (a b c d : Nat) (j : Nat) :
    writesAt (tr ++ readsRange a b ++ readsRange c d ++ [Ev.write e]) j =
      if (l.set e v).get? j ≠ l₀.get? j then 1 else 0 := by
  rw [writesAt_append, writesAt_append, writesAt_append, writesAt_readsRange,
    writesAt_readsRange, writesAt_write, htrw j]
  by_cases hj : j = e
  · rw [hj, if_pos rfl, if_neg (fun hc => hc hsame),
      if_pos (show (l.set e v).get? e ≠ l₀.get? e by
        rw [get?_set_self he v]
        exact fun hc => hv hc.symm)]
  · rw [if_neg hj, List.get?_set_ne _ _ (fun hc => hj hc.symm)]
    omega

theorem ne_of_are_equal_false {lt : α → α → Bool} (hswo : IsSWO lt) {a b : α}
    (h : are_equal lt a b = false) : a ≠ b := by
  intro he
  subst he
  rw [hswo.are_equal_self a] at h
  exact absurd h (by simp)

theorem cycleLoop_swo [DecidableEq α] {lt : α → α → Bool} (hswo : IsSWO lt)
    {l₀ L : List α} {s : Nat} {tmp₀ : α}
    (hLen : L.length = l₀.length) (hPerm : L.Perm l₀)
    (hps : ∀ x ∈ L.take s, ∀ y ∈ L.drop s, lt y x = false)
    (htmp0 : L.get? s = some tmp₀)
    (hb0 : 0 < (L.drop s).countP (fun y => lt y tmp₀)) :
    ∀ (fuel : Nat) (l : List α) (tmp : α) (dst w : Nat) (tr : List Ev),
      CInv lt l₀ L s l tmp dst w tr →
      unhappyCount lt l₀ l s + 2 ≤ fuel →
      ∃ l' w' tr', cycleLoop lt s fuel l tmp dst w tr = .ok l' w' tr' ∧
        CPost lt l₀ L s l' w' tr' := by
  have hsL : s < L.length := (List.get?_eq_some.mp htmp0).1
  have htmp0mem : tmp₀ ∈ L.drop s := mem_drop_of_get? htmp0 (Nat.le_refl s)
  have htmp0pre : ∀ y ∈ L.take s, lt tmp₀ y = false := fun y hy => hps y hy tmp₀ htmp0mem
  intro fuel
  induction fuel with
  | zero =>
    intro l tmp dst w tr _ hfuel
    omega
  | succ fuel ih =>
    intro l tmp dst w tr cinv hfuel
    have hd : dst ≠ s := by have := cinv.dst_lb; omega
    have hsl : s < l.length := by rw [cinv.len]; exact hsL
    have hstale : l.get? s = some tmp₀ := by rw [cinv.stale]; exact htmp0
    have htmpmem : tmp ∈ L.drop s := cinv.perm.subset (List.mem_cons_self tmp _)
    have htmppre : ∀ y ∈ L.take s, lt tmp y = false := fun y hy => hps y hy tmp htmpmem
    have hk : (L.drop s).countP (fun y => lt y tmp) = countLess lt l s tmp := by
      rw [← cinv.perm.countP_eq, List.countP_cons, hswo.irrefl tmp, countLess]
      simp
    have heqk : (L.drop s).countP (fun y => are_equal lt tmp y) =
        (l.drop (s + 1)).countP (fun y => are_equal lt tmp y) + 1 := by
      rw [← cinv.perm.countP_eq, List.countP_cons, hswo.are_equal_self tmp]
      simp
    by_cases hk0 : countLess lt l s tmp = 0
    · -- the in-hand element has suffix rank 0: this swap closes the cycle at `s`
      have hne_eq : are_equal lt tmp tmp₀ = false := by
        rcases hq : are_equal lt tmp tmp₀ with _ | _
        · rfl
        · have := eqv_countP_congr hswo hq (L.drop s)
          rw [hk, hk0] at this
          omega
      have hdropl : l.drop s = tmp₀ :: l.drop (s + 1) := by
        obtain ⟨hb, hbg⟩ := List.get?_eq_some.mp hstale
        rw [List.drop_eq_get_cons hb, hbg]
      have hskip2 : skipDup lt l tmp (s + countLess lt l s tmp) = some s := by
        have hsum : s + countLess lt l s tmp = s := by omega
        rw [hsum, skipDup, hdropl, skipDupGo, if_neg (by rw [hne_eq]; simp)]
      rw [cycleLoop_step hd hskip2 hstale]
      have hsunhappy : ¬ Happy lt l₀ l s := by
        intro ⟨x, hx, hr1, _⟩
        rw [hstale] at hx
        cases hx
        have := unhappy_of_suffix_lt hswo hPerm (by omega) hps htmp0pre hb0
        omega
      have hsame : l.get? s = l₀.get? s := cinv.untouched s hsunhappy
      have hl0s : l₀.get? s = some tmp₀ := by rw [← hsame]; exact hstale
      have hvne : l₀.get? s ≠ some tmp := by
        rw [hl0s]
        intro hc
        rw [Option.some_inj] at hc
        exact ne_of_are_equal_false hswo hne_eq hc.symm
      have hranks : rankLt lt l₀ tmp ≤ s ∧ s < rankLt lt l₀ tmp + rankEq lt l₀ tmp := by
        refine happy_of_suffix_bounds hPerm (by omega) htmppre ?_ ?_
        · rw [hk, hk0]
          omega
        · rw [hk, hk0, heqk]
          omega
      cases fuel with
      | zero => omega
      | succ fuel2 =>
        rw [cycleLoop_closed rfl]
        refine ⟨l.set s tmp, w + 1, _, rfl, ?_⟩
        have hhappy_s : Happy lt l₀ (l.set s tmp) s :=
          ⟨tmp, get?_set_self hsl tmp, hranks.1, hranks.2⟩
        refine ⟨?_, ?_, ?_, ?_, hhappy_s, ?_, ?_, ?_⟩
        · rw [List.length_set]
          exact cinv.len
        · rw [take_set_of_le tmp (Nat.le_refl s)]
          exact cinv.take_eq
        · rw [drop_set_cons hsl tmp]
          exact cinv.perm
        · intro t ht
          rw [get?_set_self hsl tmp, Option.some_inj] at ht
          subst ht
          rw [drop_set_of_gt (by omega) tmp]
          exact hk0 ▸ rfl
        · intro j hj
          by_cases hjs : j = s
          · subst hjs
            exact absurd hhappy_s hj
          · have hgj : (l.set s tmp).get? j = l.get? j :=
              List.get?_set_ne _ _ (fun hc => hjs hc.symm)
            rw [hgj]
            refine cinv.untouched j ?_
            intro hH
            exact hj ((happy_congr_get? hgj).mpr hH)
        · rw [diffCount_set (by rw [cinv.len]; exact hLen) hsl hsame hvne]
          rw [← cinv.wacc]
        · exact trw_update hsl hsame hvne cinv.trw _ _ _ _
    · -- the in-hand element belongs further right: swap there and continue
      have hcpos : 0 < countLess lt l s tmp := by omega
      rcases hskip : skipDup lt l tmp (s + countLess lt l s tmp) with _ | e
      · exact absurd hskip (skipDup_ne_none_of_count hcpos)
      obtain ⟨hce, helen, hseg, x', hx', hx'ne⟩ := skipDup_eq_some hskip
      have he_gt : s < e := by omega
      have hseg_le := skip_segment_le (s := s) (c := s + countLess lt l s tmp) (by omega) hce helen hseg
      have hranks : rankLt lt l₀ tmp ≤ e ∧ e < rankLt lt l₀ tmp + rankEq lt l₀ tmp := by
        refine happy_of_suffix_bounds hPerm (by omega) htmppre ?_ ?_
        · rw [hk]
          omega
        · rw [hk, heqk]
          omega
      have hx'unhappy : ¬ Happy lt l₀ l e := by
        intro ⟨y, hy, hy1, hy2⟩
        rw [hx'] at hy
        cases hy
        rcases are_equal_false_iff.mp hx'ne with h1 | h1
        · have := rank_home_disjoint hswo l₀ h1
          omega
        · have := rank_home_disjoint hswo l₀ h1
          omega
      have hsame : l.get? e = l₀.get? e := cinv.untouched e hx'unhappy
      have hl0e : l₀.get? e = some x' := by rw [← hsame]; exact hx'
      have hvne : l₀.get? e ≠ some tmp := by
        rw [hl0e]
        intro hc
        rw [Option.some_inj] at hc
        exact ne_of_are_equal_false hswo hx'ne hc.symm
      have hhappy_e : Happy lt l₀ (l.set e tmp) e :=
        ⟨tmp, get?_set_self (by omega) tmp, hranks.1, hranks.2⟩
      have hget_sub : (l.drop (s + 1)).get? (e - (s + 1)) = some x' := by
        rw [List.get?_drop]
        have harith : s + 1 + (e - (s + 1)) = e := by omega
        rw [harith]
        exact hx'
      have cinv' : CInv lt l₀ L s (l.set e tmp) x' e (w + 1)
          (tr ++ readsRange (s + 1) l.length ++
            readsRange (s + countLess lt l s tmp) (e + 1) ++ [Ev.write e]) := by
        refine ⟨?_, ?_, ?_, ?_, he_gt, ?_, ?_, ?_, ?_, ?_⟩
        · rw [List.length_set]
          exact cinv.len
        · rw [take_set_of_le tmp (by omega)]
          exact cinv.take_eq
        · rw [List.get?_set_ne _ _ (by omega)]
          exact cinv.stale
        · rw [drop_succ_set_of_lt he_gt tmp]
          exact (perm_cons_set hget_sub).trans cinv.perm
        · rw [List.length_set]
          omega
        · intro y hy
          rw [get?_set_self (by omega) tmp, Option.some_inj] at hy
          subst hy
          rw [are_equal_comm]
          exact hx'ne
        · intro j hj
          by_cases hje : j = e
          · subst hje
            exact absurd hhappy_e hj
          · have hgj : (l.set e tmp).get? j = l.get? j :=
              List.get?_set_ne _ _ (fun hc => hje hc.symm)
            rw [hgj]
            refine cinv.untouched j ?_
            intro hH
            exact hj ((happy_congr_get? hgj).mpr hH)
        · rw [diffCount_set (by rw [cinv.len]; exact hLen) (by omega) hsame hvne]
          rw [← cinv.wacc]
        · exact trw_update (by omega) hsame hvne cinv.trw _ _ _ _
      have hdec : unhappyCount lt l₀ l s = unhappyCount lt l₀ (l.set e tmp) s + 1 := by
        refine unhappyCount_set_decrement (by omega) (by omega) ?_ ?_
        · rw [unhappyB_iff hx']
          exact hx'unhappy
        · rcases hub : unhappyB lt l₀ (l.set e tmp) e with _ | _
          · rfl
          · rw [unhappyB_iff (get?_set_self (by omega) tmp)] at hub
            exact absurd hhappy_e hub
      obtain ⟨l', w', tr', hrun, hpost⟩ := ih (l.set e tmp) x' e (w + 1) _ cinv' (by omega)
      rw [cycleLoop_step hd hskip hx']
      exact ⟨l', w', tr', hrun, hpost⟩


/-! ### The outer loop under a strict weak ordering -/

theorem outerLoop_swo [DecidableEq α] {lt : α → α → Bool} (hswo : IsSWO lt) (l₀ : List α)
    (fuel : Nat) :
    ∀ (k src : Nat) (L : List α) (w : Nat) (tr : List Ev),
      src + k + 1 = L.length →
      OInv lt l₀ src L w tr →
      L.length + 2 ≤ fuel →
      ∃ l' w' tr', outerLoop lt fuel k src L w tr = .ok l' w' tr' ∧
        OInv lt l₀ (src + k) l' w' tr' ∧ l'.length = L.length := by
  intro k
  induction k with
  | zero =>
    intro src L w tr _ oinv _
    rw [outerLoop_zero]
    exact ⟨L, w, tr, rfl, oinv, rfl⟩
  | succ k ih =>
    intro src L w tr hklen oinv hfuel
    have hsrc : src < L.length := by omega
    rcases hg : L.get? src with _ | tmp₀
    · rw [List.get?_eq_none] at hg
      omega
    have htmp0mem : tmp₀ ∈ L.drop src := mem_drop_of_get? hg (Nat.le_refl src)
    have htmp0pre : ∀ y ∈ L.take src, lt tmp₀ y = false :=
      fun y hy => oinv.ps y hy tmp₀ htmp0mem
    have hdropL : L.drop src = tmp₀ :: L.drop (src + 1) := by
      obtain ⟨hb, hbg⟩ := List.get?_eq_some.mp hg
      rw [List.drop_eq_get_cons hb, hbg]
    have hbs_eq : (L.drop src).countP (fun y => lt y tmp₀) = countLess lt L src tmp₀ := by
      rw [hdropL, List.countP_cons, hswo.irrefl tmp₀, countLess]
      simp
    have hms_eq : (L.drop src).countP (fun y => are_equal lt tmp₀ y) =
        (L.drop (src + 1)).countP (fun y => are_equal lt tmp₀ y) + 1 := by
      rw [hdropL, List.countP_cons, hswo.are_equal_self tmp₀]
      simp
    have harith1 : src + 1 + k = src + (k + 1) := by omega
    by_cases hce : src + countLess lt L src tmp₀ = src
    · -- no cycle: the element at `src` is already in place
      have hc0 : countLess lt L src tmp₀ = 0 := by omega
      rw [outerLoop_step_noop hg hce]
      have oinv' : OInv lt l₀ (src + 1) L w (tr ++ readsRange (src + 1) L.length) := by
        refine ⟨oinv.len, oinv.perm, ?_, ?_, oinv.untouched, oinv.wacc, ?_⟩
        · intro x hx y hy
          rcases mem_take_succ hx with hx' | hx'
          · exact oinv.ps x hx' y (mem_drop_succ hy)
          · rw [hg, Option.some_inj] at hx'
            subst hx'
            have hzero : (L.drop (src + 1)).countP (fun y => lt y tmp₀) = 0 := hc0
            have hny := List.countP_eq_zero.mp hzero y hy
            revert hny
            cases lt y tmp₀ <;> simp
        · intro j hj
          rcases Nat.lt_or_ge j src with hj' | hj'
          · exact oinv.happy j hj'
          · have hjs : j = src := by omega
            subst hjs
            refine ⟨tmp₀, hg, ?_⟩
            refine happy_of_suffix_bounds oinv.perm (by omega) htmp0pre ?_ ?_
            · rw [hbs_eq, hc0]
              omega
            · rw [hbs_eq, hc0, hms_eq]
              omega
        · intro j
          rw [writesAt_append, writesAt_readsRange, oinv.trw j]
          omega
      obtain ⟨l', w', tr', hrun, hoinv, hlen'⟩ :=
        ih (src + 1) L w (tr ++ readsRange (src + 1) L.length) (by omega) oinv' hfuel
      rw [harith1] at hoinv
      exact ⟨l', w', tr', hrun, hoinv, hlen'⟩
    · -- resolve the displacement cycle starting at `src`
      have hcpos : 0 < countLess lt L src tmp₀ := by omega
      have hb0 : 0 < (L.drop src).countP (fun y => lt y tmp₀) := by
        rw [hbs_eq]
        exact hcpos
      rcases hskip : skipDup lt L tmp₀ (src + countLess lt L src tmp₀) with _ | e
      · exact absurd hskip (skipDup_ne_none_of_count hcpos)
      obtain ⟨hce', helen, hseg, x', hx', hx'ne⟩ := skipDup_eq_some hskip
      have he_gt : src < e := by omega
      have hseg_le := skip_segment_le (s := src) (c := src + countLess lt L src tmp₀)
        (by omega) hce' helen hseg
      have hranks : rankLt lt l₀ tmp₀ ≤ e ∧ e < rankLt lt l₀ tmp₀ + rankEq lt l₀ tmp₀ := by
        refine happy_of_suffix_bounds oinv.perm (by omega) htmp0pre ?_ ?_
        · rw [hbs_eq]
          omega
        · rw [hbs_eq, hms_eq]
          omega
      have hx'unhappy : ¬ Happy lt l₀ L e := by
        intro ⟨y, hy, hy1, hy2⟩
        rw [hx'] at hy
        cases hy
        rcases are_equal_false_iff.mp hx'ne with h1 | h1
        · have := rank_home_disjoint hswo l₀ h1
          omega
        · have := rank_home_disjoint hswo l₀ h1
          omega
      have hsame : L.get? e = l₀.get? e := oinv.untouched e hx'unhappy
      have hl0e : l₀.get? e = some x' := by rw [← hsame]; exact hx'
      have hvne : l₀.get? e ≠ some tmp₀ := by
        rw [hl0e]
        intro hc
        rw [Option.some_inj] at hc
        exact ne_of_are_equal_false hswo hx'ne hc.symm
      have hhappy_e : Happy lt l₀ (L.set e tmp₀) e :=
        ⟨tmp₀, get?_set_self (by omega) tmp₀, hranks.1, hranks.2⟩
      have hget_sub : (L.drop (src + 1)).get? (e - (src + 1)) = some x' := by
        rw [List.get?_drop]
        have harith : src + 1 + (e - (src + 1)) = e := by omega
        rw [harith]
        exact hx'
      have cinv : CInv lt l₀ L src (L.set e tmp₀) x' e (w + 1)
          (tr ++ readsRange (src + 1) L.length ++
            readsRange (src + countLess lt L src tmp₀) (e + 1) ++ [Ev.write e]) := by
        refine ⟨?_, ?_, ?_, ?_, he_gt, ?_, ?_, ?_, ?_, ?_⟩
        · exact List.length_set L e tmp₀
        · exact take_set_of_le tmp₀ (by omega)
        · exact List.get?_set_ne _ _ (by omega)
        · rw [drop_succ_set_of_lt he_gt tmp₀]
          refine (perm_cons_set hget_sub).trans ?_
          rw [hdropL]
        · rw [List.length_set]
          omega
        · intro y hy
          rw [get?_set_self (by omega) tmp₀, Option.some_inj] at hy
          subst hy
          rw [are_equal_comm]
          exact hx'ne
        · intro j hj
          by_cases hje : j = e
          · subst hje
            exact absurd hhappy_e hj
          · have hgj : (L.set e tmp₀).get? j = L.get? j :=
              List.get?_set_ne _ _ (fun hc => hje hc.symm)
            rw [hgj]
            refine oinv.untouched j ?_
            intro hH
            exact hj ((happy_congr_get? hgj).mpr hH)
        · rw [diffCount_set oinv.len (by omega) hsame hvne, ← oinv.wacc]
        · exact trw_update (by omega) hsame hvne oinv.trw _ _ _ _
      obtain ⟨l₂, w₂, tr₂, hrun, cpost⟩ :=
        cycleLoop_swo hswo oinv.len oinv.perm oinv.ps hg hb0 fuel (L.set e tmp₀) x' e
          (w + 1) _ cinv
          (by
            have := unhappyCount_le lt l₀ (L.set e tmp₀) src
            rw [List.length_set] at this
            omega)
      rw [outerLoop_step_cycle hg hce hskip hx']
      simp only [hrun]
      have hl2L : l₂.Perm L := by
        have hsplit2 : l₂ = l₂.take src ++ l₂.drop src := (List.take_append_drop src l₂).symm
        have hsplit1 : L = L.take src ++ L.drop src := (List.take_append_drop src L).symm
        rw [hsplit2, hsplit1, cpost.take_eq]
        exact List.Perm.append_left (L.take src) cpost.perm
      have oinv' : OInv lt l₀ (src + 1) l₂ w₂ (tr₂ ++ [Ev.close src]) := by
        refine ⟨cpost.len.trans oinv.len, hl2L.trans oinv.perm, ?_, ?_, cpost.untouched,
          cpost.wacc, ?_⟩
        · intro x hx y hy
          rcases mem_take_succ hx with hx' | hx'
          · rw [cpost.take_eq] at hx'
            have hy' : y ∈ L.drop src := cpost.perm.subset (mem_drop_succ hy)
            exact oinv.ps x hx' y hy'
          · have := cpost.top x hx'
            have hny := List.countP_eq_zero.mp this y hy
            revert hny
            cases lt y x <;> simp
        · intro j hj
          rcases Nat.lt_or_ge j src with hj' | hj'
          · have hgj : l₂.get? j = L.get? j := get?_eq_of_take_eq cpost.take_eq hj'
            exact (happy_congr_get? hgj).mpr (oinv.happy j hj')
          · have hjs : j = src := by omega
            subst hjs
            exact cpost.happy_s
        · intro j
          rw [writesAt_append, writesAt_close, cpost.trw j]
          omega
      obtain ⟨l', w', tr', hrun', hoinv, hlen'⟩ :=
        ih (src + 1) l₂ w₂ (tr₂ ++ [Ev.close src])
          (by rw [cpost.len]; omega)
          oinv' (by rw [cpost.len]; exact hfuel)
      rw [harith1] at hoinv
      exact ⟨l', w', tr', hrun', hoinv, by rw [hlen', cpost.len]⟩


/-! ### End-to-end result for a strict weak ordering -/

theorem sorted_of_final [DecidableEq α] {lt : α → α → Bool} (hswo : IsSWO lt)
    {l₀ l' : List α} {w' : Nat} {tr' : List Ev}
    (hoinv : OInv lt l₀ (l'.length - 1) l' w' tr') :
    is_sorted lt l' = true := by
  rw [is_sorted_iff_get?]
  intro i x y hx hy
  have hiy : i + 1 < l'.length := (List.get?_eq_some.mp hy).1
  rcases Nat.lt_or_ge (i + 1) (l'.length - 1) with hcase | hcase
  · exact not_lt_of_happy_pair hswo (Nat.lt_succ_self i)
      (hoinv.happy i (by omega)) (hoinv.happy (i + 1) hcase) hx hy
  · have hieq : i + 1 = l'.length - 1 := by omega
    refine hoinv.ps x ?_ y ?_
    · exact mem_take_of_get? hx (by omega)
    · exact mem_drop_of_get? hy (by omega)

/-- Full behaviour of `cycle_impl` under a strict weak ordering, with fuel
`l.length + 2`: it returns normally with a sorted permutation of the input,
a write counter equal to the number of changed slots, and a trace writing
each slot at most once. -/
theorem cycle_impl_swo [DecidableEq α] {lt : α → α → Bool} (hswo : IsSWO lt) (l : List α) :
    ∃ l' w' tr', cycle_impl lt false l (l.length + 2) = .ok l' w' tr' ∧
      l'.Perm l ∧ is_sorted lt l' = true ∧ w' = diffCount l l' ∧
      (∀ j, writesAt tr' j ≤ 1) := by
  rw [cycle_impl]
  by_cases hlen : l.length < 2
  · rw [if_pos (by simp [hlen])]
    refine ⟨l, 0, [], rfl, List.Perm.refl l, ?_, (diffCount_self l).symm, ?_⟩
    · match l, hlen with
      | [], _ => rfl
      | [a], _ => rfl
    · intro j
      rw [writesAt_nil]
      omega
  · rw [if_neg (by simp [hlen])]
    have hinit : OInv lt l 0 l 0 [] := by
      refine ⟨rfl, List.Perm.refl l, ?_, ?_, fun j _ => rfl, (diffCount_self l).symm, ?_⟩
      · intro x hx
        simp at hx
      · intro j hj
        omega
      · intro j
        rw [writesAt_nil, if_neg (fun hc => hc rfl)]
    obtain ⟨l', w', tr', hrun, hoinv, hlen'⟩ :=
      outerLoop_swo hswo l (l.length + 2) (l.length - 1) 0 l 0 [] (by omega) hinit
        (by omega)
    have harith : 0 + (l.length - 1) = l'.length - 1 := by omega
    rw [harith] at hoinv
    refine ⟨l', w', tr', hrun, hoinv.perm, sorted_of_final hswo hoinv, hoinv.wacc, ?_⟩
    intro j
    rw [hoinv.trw j]
    split <;> omega


/-! ### Fuel monotonicity -/

theorem cycleLoop_step_panic2 {lt : α → α → Bool} {src fuel : Nat} {l : List α} {tmp : α}
    {dst w : Nat} {tr : List Ev} {e : Nat} (hd : dst ≠ src)
    (hskip : skipDup lt l tmp (src + countLess lt l src tmp) = some e)
    (hx : l.get? e = none) :
    cycleLoop lt src (fuel + 1) l tmp dst w tr = .panic := by
  simp only [cycleLoop, if_neg hd, hskip, hx]

theorem outerLoop_step_panicGet {lt : α → α → Bool} {fuel k src : Nat} {l : List α}
    {w : Nat} {tr : List Ev} (hg : l.get? src = none) :
    outerLoop lt fuel (k + 1) src l w tr = .panic := by
  simp only [outerLoop, hg]

theorem outerLoop_step_panicSkip {lt : α → α → Bool} {fuel k src : Nat} {l : List α}
    {tmp : α} {w : Nat} {tr : List Ev} (hg : l.get? src = some tmp)
    (hce : ¬ src + countLess lt l src tmp = src)
    (hskip : skipDup lt l tmp (src + countLess lt l src tmp) = none) :
    outerLoop lt fuel (k + 1) src l w tr = .panic := by
  simp only [outerLoop, hg, if_neg hce, hskip]

theorem outerLoop_step_panicGet2 {lt : α → α → Bool} {fuel k src : Nat} {l : List α}
    {tmp : α} {w : Nat} {tr : List Ev} {e : Nat} (hg : l.get? src = some tmp)
    (hce : ¬ src + countLess lt l src tmp = src)
    (hskip : skipDup lt l tmp (src + countLess lt l src tmp) = some e)
    (hx : l.get? e = none) :
    outerLoop lt fuel (k + 1) src l w tr = .panic := by
  simp only [outerLoop, hg, if_neg hce, hskip, hx]

theorem cycleLoop_mono {lt : α → α → Bool} {src : Nat} :
    ∀ {f g : Nat}, f ≤ g → ∀ {l : List α} {tmp : α} {dst w : Nat} {tr : List Ev}
      {l' : List α} {w' : Nat} {tr' : List Ev},
      cycleLoop lt src f l tmp dst w tr = .ok l' w' tr' →
      cycleLoop lt src g l tmp dst w tr = .ok l' w' tr' := by
  intro f
  induction f with
  | zero =>
    intro g _ l tmp dst w tr l' w' tr' h
    rw [cycleLoop_zero] at h
    exact absurd h (by simp)
  | succ f ih =>
    intro g hfg l tmp dst w tr l' w' tr' h
    cases g with
    | zero => omega
    | succ g2 =>
      by_cases hd : dst = src
      · rw [cycleLoop_closed hd] at h
        rw [cycleLoop_closed hd]
        exact h
      · rcases hskip : skipDup lt l tmp (src + countLess lt l src tmp) with _ | e
        · rw [cycleLoop_step_panic hd hskip] at h
          exact absurd h (by simp)
        · rcases hx : l.get? e with _ | x
          · rw [cycleLoop_step_panic2 hd hskip hx] at h
            exact absurd h (by simp)
          · rw [cycleLoop_step hd hskip hx] at h
            rw [cycleLoop_step hd hskip hx]
            exact ih (by omega) h

theorem outerLoop_mono {lt : α → α → Bool} {f g : Nat} (hfg : f ≤ g) :
    ∀ {k src : Nat} {l : List α} {w : Nat} {tr : List Ev}
      {l' : List α} {w' : Nat} {tr' : List Ev},
      outerLoop lt f k src l w tr = .ok l' w' tr' →
      outerLoop lt g k src l w tr = .ok l' w' tr' := by
  intro k
  induction k with
  | zero =>
    intro src l w tr l' w' tr' h
    rw [outerLoop_zero] at h
    rw [outerLoop_zero]
    exact h
  | succ k ih =>
    intro src l w tr l' w' tr' h
    rcases hg : l.get? src with _ | tmp
    · rw [outerLoop_step_panicGet hg] at h
      exact absurd h (by simp)
    by_cases hce : src + countLess lt l src tmp = src
    · rw [outerLoop_step_noop hg hce] at h
      rw [outerLoop_step_noop hg hce]
      exact ih h
    · rcases hskip : skipDup lt l tmp (src + countLess lt l src tmp) with _ | e
      · rw [outerLoop_step_panicSkip hg hce hskip] at h
        exact absurd h (by simp)
      rcases hx : l.get? e with _ | x
      · rw [outerLoop_step_panicGet2 hg hce hskip hx] at h
        exact absurd h (by simp)
      rw [outerLoop_step_cycle hg hce hskip hx] at h
      rw [outerLoop_step_cycle hg hce hskip hx]
      rcases hcyc : cycleLoop lt src f (l.set e tmp) x e (w + 1)
          (tr ++ readsRange (src + 1) l.length ++
            readsRange (src + countLess lt l src tmp) (e + 1) ++ [Ev.write e])
          with ⟨l₂, w₂, tr₂⟩ | _ | _
      · simp only [hcyc] at h
        have hcyc2 := cycleLoop_mono hfg hcyc
        simp only [hcyc2]
        exact ih h
      · simp only [hcyc] at h
        exact absurd h (by simp)
      · simp only [hcyc] at h
        exact absurd h (by simp)

theorem cycle_impl_mono {lt : α → α → Bool} {sz : Bool} {l : List α} {f g : Nat}
    (hfg : f ≤ g) {l' : List α} {w' : Nat} {tr' : List Ev}
    (h : cycle_impl lt sz l f = .ok l' w' tr') :
    cycle_impl lt sz l g = .ok l' w' tr' := by
  rw [cycle_impl] at h
  rw [cycle_impl]
  by_cases hc : (sz || decide (l.length < 2)) = true
  · rw [if_pos hc] at h
    rw [if_pos hc]
    exact h
  · rw [if_neg hc] at h
    rw [if_neg hc]
    exact outerLoop_mono hfg h

theorem cycle_impl_agree {lt : α → α → Bool} {sz : Bool} {l : List α} {f g : Nat}
    {l₁ l₂ : List α} {w₁ w₂ : Nat} {t₁ t₂ : List Ev}
    (h1 : cycle_impl lt sz l f = .ok l₁ w₁ t₁) (h2 : cycle_impl lt sz l g = .ok l₂ w₂ t₂) :
    l₁ = l₂ ∧ w₁ = w₂ ∧ t₁ = t₂ := by
  have h1b := cycle_impl_mono (Nat.le_max_left f g) h1
  have h2b := cycle_impl_mono (Nat.le_max_right f g) h2
  rw [h1b, Res.ok.injEq] at h2b
  exact h2b

/-! ### Runs in which every counting pass finds its element in place -/

theorem outerLoop_noop {lt : α → α → Bool} (fuel : Nat) :
    ∀ (k src : Nat) (l : List α) (w : Nat) (tr : List Ev),
      src + k ≤ l.length →
      (∀ s t, src ≤ s → l.get? s = some t → countLess lt l s t = 0) →
      ∃ tr', outerLoop lt fuel k src l w tr = .ok l w tr' ∧
        ∀ e ∈ tr', e ∈ tr ∨ ∃ i, e = Ev.read i := by
  intro k
  induction k with
  | zero =>
    intro src l w tr _ _
    rw [outerLoop_zero]
    exact ⟨tr, rfl, fun e he => Or.inl he⟩
  | succ k ih =>
    intro src l w tr hlen hnoop
    rcases hg : l.get? src with _ | tmp
    · rw [List.get?_eq_none] at hg
      omega
    have hce : src + countLess lt l src tmp = src := by
      rw [hnoop src tmp (Nat.le_refl src) hg]
      omega
    rw [outerLoop_step_noop hg hce]
    obtain ⟨tr', hrun, hmem⟩ := ih (src + 1) l w (tr ++ readsRange (src + 1) l.length)
      (by omega) (fun s t hs ht => hnoop s t (by omega) ht)
    refine ⟨tr', hrun, ?_⟩
    intro e he
    rcases hmem e he with he' | he'
    · rcases List.mem_append.mp he' with he2 | he2
      · exact Or.inl he2
      · rw [readsRange] at he2
        obtain ⟨i, _, rfl⟩ := List.mem_map.mp he2
        exact Or.inr ⟨i, rfl⟩
    · exact Or.inr he'

/-! ### Divergence of the cycle loop for an inconsistent relation -/

theorem cycleLoop_lttrue_fuel :
    ∀ (f w : Nat) (tr : List Ev),
      cycleLoop (fun _ _ : Nat => true) 0 f [0, 0] 1 1 w tr = .fuel ∧
      cycleLoop (fun _ _ : Nat => true) 0 f [0, 1] 0 1 w tr = .fuel := by
  intro f
  induction f with
  | zero =>
    intro w tr
    exact ⟨cycleLoop_zero _ _ _ _ _ _ _, cycleLoop_zero _ _ _ _ _ _ _⟩
  | succ f ih =>
    intro w tr
    constructor
    · rw [cycleLoop_step (show (1 : Nat) ≠ 0 by omega)
        (show skipDup (fun _ _ : Nat => true) [0, 0] 1
          (0 + countLess (fun _ _ : Nat => true) [0, 0] 0 1) = some 1 from rfl)
        (show ([0, 0] : List Nat).get? 1 = some 0 from rfl)]
      exact (ih (w + 1) _).2
    · rw [cycleLoop_step (show (1 : Nat) ≠ 0 by omega)
        (show skipDup (fun _ _ : Nat => true) [0, 1] 0
          (0 + countLess (fun _ _ : Nat => true) [0, 1] 0 0) = some 1 from rfl)
        (show ([0, 1] : List Nat).get? 1 = some 1 from rfl)]
      exact (ih (w + 1) _).1

theorem cycle_impl_lttrue_fuel (f : Nat) :
    cycle_impl (fun _ _ : Nat => true) false [0, 1] f = .fuel := by
  rw [cycle_impl, if_neg (by simp)]
  show outerLoop (fun _ _ : Nat => true) f (0 + 1) 0 [0, 1] 0 [] = Res.fuel
  rw [outerLoop_step_cycle
    (show ([0, 1] : List Nat).get? 0 = some 0 from rfl)
    (show ¬ 0 + countLess (fun _ _ : Nat => true) [0, 1] 0 0 = 0 by simp [countLess])
    (show skipDup (fun _ _ : Nat => true) [0, 1] 0
      (0 + countLess (fun _ _ : Nat => true) [0, 1] 0 0) = some 1 from rfl)
    (show ([0, 1] : List Nat).get? 1 = some 1 from rfl)]
  have hfuel : cycleLoop (fun _ _ : Nat => true) 0 f ([0, 1].set 1 0) 1 1 (0 + 1)
      ([] ++ readsRange (0 + 1) (List.length [0, 1]) ++
        readsRange (0 + countLess (fun _ _ : Nat => true) [0, 1] 0 0) (1 + 1) ++
        [Ev.write 1]) = Res.fuel :=
    (cycleLoop_lttrue_fuel f (0 + 1) _).1
  simp only [hfuel]

/-! ### Panic freedom and the permutation invariant, for arbitrary relations -/

theorem cycleLoop_basic (lt : α → α → Bool) (src : Nat) (D : List α) :
    ∀ (fuel : Nat) (l : List α) (tmp : α) (dst w : Nat) (tr : List Ev),
      src < l.length → dst < l.length →
      (dst = src → (l.drop src).Perm D) →
      (dst ≠ src → src < dst ∧
        (∀ x, l.get? dst = some x → are_equal lt tmp x = false) ∧
        (tmp :: l.drop (src + 1)).Perm D) →
      (cycleLoop lt src fuel l tmp dst w tr ≠ .panic) ∧
      (∀ l' w' tr', cycleLoop lt src fuel l tmp dst w tr = .ok l' w' tr' →
        l'.length = l.length ∧ l'.take src = l.take src ∧ (l'.drop src).Perm D) := by
  intro fuel
  induction fuel with
  | zero =>
    intro l tmp dst w tr _ _ _ _
    constructor
    · intro hcon
      rw [cycleLoop_zero] at hcon
      exact absurd hcon (by simp)
    · intro l' w' tr' hok
      rw [cycleLoop_zero] at hok
      exact absurd hok (by simp)
  | succ fuel ih =>
    intro l tmp dst w tr hsrc hdst hcase1 hcase2
    by_cases hd : dst = src
    · rw [cycleLoop_closed hd]
      refine ⟨by simp, ?_⟩
      intro l' w' tr' hok
      rw [Res.ok.injEq] at hok
      obtain ⟨rfl, rfl, rfl⟩ := hok
      exact ⟨rfl, rfl, hcase1 hd⟩
    · obtain ⟨hlt', hblock, hperm⟩ := hcase2 hd
      have hskipne : skipDup lt l tmp (src + countLess lt l src tmp) ≠ none := by
        by_cases hc0 : countLess lt l src tmp = 0
        · apply skipDup_ne_none_of_blocker
          rcases hx : l.get? dst with _ | x
          · rw [List.get?_eq_none] at hx
            omega
          · exact ⟨dst, x, by omega, hx, hblock x hx⟩
        · exact skipDup_ne_none_of_count (by omega)
      rcases hskip : skipDup lt l tmp (src + countLess lt l src tmp) with _ | e
      · exact absurd hskip hskipne
      obtain ⟨hce, helen, hseg, x', hx', hx'ne⟩ := skipDup_eq_some hskip
      rw [cycleLoop_step hd hskip hx']
      have hsetlen : (l.set e tmp).length = l.length := List.length_set l e tmp
      have hrec := ih (l.set e tmp) x' e (w + 1)
        (tr ++ readsRange (src + 1) l.length ++
          readsRange (src + countLess lt l src tmp) (e + 1) ++ [Ev.write e])
        (by omega) (by omega) ?_ ?_
      · refine ⟨hrec.1, ?_⟩
        intro l' w' tr' hok
        obtain ⟨h1, h2, h3⟩ := hrec.2 l' w' tr' hok
        refine ⟨by omega, ?_, h3⟩
        rw [h2, take_set_of_le tmp (by omega)]
      · intro he
        subst he
        rw [drop_set_cons hsrc tmp]
        exact hperm
      · intro he
        have hlte : src < e := by omega
        refine ⟨hlte, ?_, ?_⟩
        · intro y hy
          rw [get?_set_self (by omega) tmp] at hy
          cases hy
          rw [are_equal_comm]
          exact hx'ne
        · rw [drop_succ_set_of_lt hlte tmp]
          have hget : (l.drop (src + 1)).get? (e - (src + 1)) = some x' := by
            rw [List.get?_drop]
            have harith : src + 1 + (e - (src + 1)) = e := by omega
            rw [harith]
            exact hx'
          exact (perm_cons_set hget).trans hperm

theorem outerLoop_basic (lt : α → α → Bool) (fuel : Nat) :
    ∀ (k src : Nat) (l : List α) (w : Nat) (tr : List Ev),
      src + k + 1 = l.length →
      (outerLoop lt fuel k src l w tr ≠ .panic) ∧
      (∀ l' w' tr', outerLoop lt fuel k src l w tr = .ok l' w' tr' →
        l'.length = l.length ∧ l'.Perm l) := by
  intro k
  induction k with
  | zero =>
    intro src l w tr _
    rw [outerLoop_zero]
    refine ⟨by simp, ?_⟩
    intro l' w' tr' hok
    rw [Res.ok.injEq] at hok
    obtain ⟨rfl, rfl, rfl⟩ := hok
    exact ⟨rfl, List.Perm.refl l⟩
  | succ k ih =>
    intro src l w tr hlen
    have hsrc : src < l.length := by omega
    rcases hg : l.get? src with _ | tmp
    · rw [List.get?_eq_none] at hg
      omega
    by_cases hce : src + countLess lt l src tmp = src
    · rw [outerLoop_step_noop hg hce]
      have := ih (src + 1) l w (tr ++ readsRange (src + 1) l.length) (by omega)
      exact this
    · have hcpos : 0 < countLess lt l src tmp := by omega
      rcases hskip : skipDup lt l tmp (src + countLess lt l src tmp) with _ | e
      · exact absurd hskip (skipDup_ne_none_of_count hcpos)
      obtain ⟨hce', helen, hseg, x', hx', hx'ne⟩ := skipDup_eq_some hskip
      rw [outerLoop_step_cycle hg hce hskip hx']
      have hlte : src < e := by omega
      have hdropl : l.drop src = tmp :: l.drop (src + 1) := by
        obtain ⟨hb, hbg⟩ := List.get?_eq_some.mp hg
        rw [List.drop_eq_get_cons hb, hbg]
      have hbasic := cycleLoop_basic lt src (l.drop src) fuel (l.set e tmp) x' e (w + 1)
        (tr ++ readsRange (src + 1) l.length ++
          readsRange (src + countLess lt l src tmp) (e + 1) ++ [Ev.write e])
        (by rw [List.length_set]; omega) (by rw [List.length_set]; omega)
        (fun he => absurd he (by omega)) ?_
      · rcases hcyc : cycleLoop lt src fuel (l.set e tmp) x' e (w + 1)
            (tr ++ readsRange (src + 1) l.length ++
              readsRange (src + countLess lt l src tmp) (e + 1) ++ [Ev.write e])
            with ⟨l₂, w₂, tr₂⟩ | _ | _
        · simp only [hcyc]
          obtain ⟨h1, h2, h3⟩ := hbasic.2 _ _ _ hcyc
          rw [List.length_set] at h1
          have hperm2 : l₂.Perm l := by
            have hsplit2 : l₂ = l₂.take src ++ l₂.drop src := (List.take_append_drop src l₂).symm
            have hsplit1 : l = l.take src ++ l.drop src := (List.take_append_drop src l).symm
            rw [hsplit2, hsplit1, h2, take_set_of_le tmp (by omega)]
            exact List.Perm.append_left (l.take src) h3
          have hrec := ih (src + 1) l₂ w₂ (tr₂ ++ [Ev.close src]) (by omega)
          refine ⟨hrec.1, ?_⟩
          intro l' w' tr' hok
          obtain ⟨h4, h5⟩ := hrec.2 l' w' tr' hok
          exact ⟨by omega, h5.trans hperm2⟩
        · exact absurd hcyc (fun hc => hbasic.1 hc)
        · simp only [hcyc]
          refine ⟨by simp, ?_⟩
          intro l' w' tr' hok
          exact absurd hok (by simp)
      · intro _
        refine ⟨hlte, ?_, ?_⟩
        · intro y hy
          rw [get?_set_self (by omega) tmp] at hy
          cases hy
          rw [are_equal_comm]
          exact hx'ne
        · rw [drop_succ_set_of_lt hlte tmp]
          have hget : (l.drop (src + 1)).get? (e - (src + 1)) = some x' := by
            rw [List.get?_drop]
            have harith : src + 1 + (e - (src + 1)) = e := by omega
            rw [harith]
            exact hx'
          rw [hdropl]
          exact perm_cons_set hget

/-- Core safety result for arbitrary relations: `cycle_impl` never makes an
out-of-bounds slice access, and whenever it returns normally the final
sequence is a permutation of the input. -/
theorem cycle_impl_basic (lt : α → α → Bool) (sz : Bool) (l : List α) (fuel : Nat) :
    (cycle_impl lt sz l fuel ≠ .panic) ∧
    (∀ l' w' tr', cycle_impl lt sz l fuel = .ok l' w' tr' → l'.Perm l) := by
  rw [cycle_impl]
  by_cases hc : (sz || decide (l.length < 2)) = true
  · rw [if_pos hc]
    refine ⟨by simp, ?_⟩
    intro l' w' tr' hok
    rw [Res.ok.injEq] at hok
    obtain ⟨rfl, rfl, rfl⟩ := hok
    exact List.Perm.refl l
  · rw [if_neg hc]
    have hlen : 2 ≤ l.length := by
      rcases Nat.lt_or_ge l.length 2 with h2 | h2
      · exact absurd (by simp [h2]) hc
      · exact h2
    have := outerLoop_basic lt fuel (l.length - 1) 0 l 0 [] (by omega)
    exact ⟨this.1, fun l' w' tr' hok => (this.2 l' w' tr' hok).2⟩


/-! ### Helper facts for the claim instances -/

theorem natLt_swo : IsSWO natLt := by
  refine ⟨?_, ?_, ?_⟩
  · intro a
    simp [natLt]
  · intro a b c h1 h2
    simp [natLt] at h1 h2 ⊢
    omega
  · intro a b c h1 h2
    simp [natLt, are_equal] at h1 h2 ⊢
    omega

theorem compare_beq_lt {α : Type} [LinearOrder α] (a b : α) :
    (compare a b == Ordering.lt) = decide (a < b) := by
  by_cases h : a < b
  · rw [decide_eq_true h, (compare_lt_iff_lt.mpr h : compare a b = Ordering.lt)]
    rfl
  · rw [decide_eq_false h]
    rcases hc : compare a b with _ | _ | _
    · exact absurd (compare_lt_iff_lt.mp hc) h
    · rfl
    · rfl

/-! ### Claim theorems -/

/-- C1: for every finite sequence and every `is_less` that is a strict weak
ordering, after `cycle_sort` / `cycle_sort_by` / `cycle_sort_by_key`
(all of which run `cycle_impl`) returns, every adjacent pair
`(a[i], a[i+1])` of the sequence satisfies `!is_less(a[i+1], a[i])`: the
sequence is sorted non-decreasing per `is_less`. -/
theorem cycle_impl_sorts {α : Type} {lt : α → α → Bool} (hswo : IsSWO lt)
    {l l' : List α} {fuel w : Nat} {tr : List Ev}
    (hrun : cycle_impl lt false l fuel = .ok l' w tr) :
    is_sorted lt l' = true := by
  letI : DecidableEq α := Classical.decEq α
  obtain ⟨l₂, w₂, tr₂, hrun₂, _, hsort, _, _⟩ := cycle_impl_swo hswo l
  obtain ⟨h1, _, _⟩ := cycle_impl_agree hrun hrun₂
  rw [h1]
  exact hsort

theorem cycle_impl_sorts_witness :
    ∃ l' w tr, cycle_impl natLt false [1, 4, 1, 5, 9, 2] 10 = Res.ok l' w tr ∧
      is_sorted natLt l' = true := by
  rcases h : cycle_impl natLt false [1, 4, 1, 5, 9, 2] 10 with ⟨l', w, tr⟩ | _ | _
  · exact ⟨l', w, tr, rfl, cycle_impl_sorts natLt_swo h⟩
  · exact absurd h (by decide)
  · exact absurd h (by decide)

/-- C2: for every finite sequence and every `is_less` that is a strict weak
ordering, the multiset of elements after the sort returns equals the
multiset before the call: the result is a permutation of the input. -/
theorem cycle_impl_permutes {α : Type} {lt : α → α → Bool} (hswo : IsSWO lt)
    {sz : Bool} {l l' : List α} {fuel w : Nat} {tr : List Ev}
    (hrun : cycle_impl lt sz l fuel = .ok l' w tr) :
    l'.Perm l :=
  (cycle_impl_basic lt sz l fuel).2 l' w tr hrun

theorem cycle_impl_permutes_witness :
    ∃ l' w tr, cycle_impl natLt false [2, 1] 5 = Res.ok l' w tr ∧
      l'.Perm [2, 1] := by
  rcases h : cycle_impl natLt false [2, 1] 5 with ⟨l', w, tr⟩ | _ | _
  · exact ⟨l', w, tr, rfl, cycle_impl_permutes natLt_swo h⟩
  · exact absurd h (by decide)
  · exact absurd h (by decide)

/-- C3: for every finite sequence and every `is_less` that is a strict weak
ordering, the returned `usize` equals exactly the number of index
positions whose final occupant differs from their original occupant,
`count(i where final[i] != initial[i])`. -/
theorem cycle_impl_write_count {α : Type} [DecidableEq α] {lt : α → α → Bool}
    (hswo : IsSWO lt) {l l' : List α} {fuel w : Nat} {tr : List Ev}
    (hrun : cycle_impl lt false l fuel = .ok l' w tr) :
    w = diffCount l l' := by
  obtain ⟨l₂, w₂, tr₂, hrun₂, _, _, hw, _⟩ := cycle_impl_swo hswo l
  obtain ⟨h1, h2, _⟩ := cycle_impl_agree hrun hrun₂
  rw [h1, h2]
  exact hw

theorem cycle_impl_write_count_witness :
    ∃ l' w tr, cycle_impl natLt false [5, 2, 4, 2] 10 = Res.ok l' w tr ∧
      w = diffCount [5, 2, 4, 2] l' := by
  rcases h : cycle_impl natLt false [5, 2, 4, 2] 10 with ⟨l', w, tr⟩ | _ | _
  · exact ⟨l', w, tr, rfl, cycle_impl_write_count natLt_swo h⟩
  · exact absurd h (by decide)
  · exact absurd h (by decide)

/-- C4 (amended): for every finite sequence and every boolean relation
`is_less`, including inconsistent ones, the sort never makes an
out-of-bounds slice access (no crash), and whenever the call terminates it
leaves the sequence as a permutation of its input.  Termination itself is
not guaranteed for inconsistent relations (see the counterexample). -/
theorem cycle_impl_no_out_of_bounds {α : Type} (lt : α → α → Bool) (sz : Bool)
    (l : List α) (fuel : Nat) :
    cycle_impl lt sz l fuel ≠ .panic ∧
    (∀ l' w tr, cycle_impl lt sz l fuel = .ok l' w tr → l'.Perm l) :=
  cycle_impl_basic lt sz l fuel

theorem cycle_impl_no_out_of_bounds_witness :
    cycle_impl (fun a b : Nat => decide (b < a)) false [1, 0, 2] 6 ≠ Res.panic ∧
    (∀ l' w tr, cycle_impl (fun a b : Nat => decide (b < a)) false [1, 0, 2] 6 =
      Res.ok l' w tr → l'.Perm [1, 0, 2]) :=
  cycle_impl_no_out_of_bounds (fun a b : Nat => decide (b < a)) false [1, 0, 2] 6

/-- C4 counterexample: with the inconsistent relation that returns `true`
for every pair (so `is_less(a, b)` and `is_less(b, a)` both hold), the
call on `[0, 1]` never terminates: the cycle-following loop swaps the same
slot forever, and no amount of fuel makes the run return. -/
theorem cycle_impl_inconsistent_diverges :
    ¬ ∃ fuel l' w tr, cycle_impl (fun _ _ : Nat => true) false [0, 1] fuel =
      Res.ok l' w tr := by
  intro ⟨fuel, l', w, tr, h⟩
  rw [cycle_impl_lttrue_fuel fuel] at h
  exact absurd h (by simp)

/-- C5: for every finite sequence and every `is_less` that is a strict
weak ordering — in particular for sequences with many repeated values —
the sort terminates: some fuel suffices for the duplicate-skip loop and
the cycle-following loop to end and the run to return normally. -/
theorem cycle_impl_terminates {α : Type} {lt : α → α → Bool} (hswo : IsSWO lt)
    (sz : Bool) (l : List α) :
    ∃ fuel l' w tr, cycle_impl lt sz l fuel = .ok l' w tr := by
  letI : DecidableEq α := Classical.decEq α
  rcases sz with _ | _
  · obtain ⟨l', w, tr, hrun, _⟩ := cycle_impl_swo hswo l
    exact ⟨l.length + 2, l', w, tr, hrun⟩
  · exact ⟨0, l, 0, [], by simp [cycle_impl]⟩

theorem cycle_impl_terminates_witness :
    ∃ fuel l' w tr, cycle_impl natLt false [3, 3, 1, 3, 2, 3] fuel = Res.ok l' w tr :=
  cycle_impl_terminates natLt_swo false [3, 3, 1, 3, 2, 3]

/-- C6 (amended): under a strict weak ordering, no slot is written more
than once during the whole sort — once a slot has received its final
occupant it is never overwritten.  (Finally-placed slots can however still
be re-read by later counting passes; see the counterexample.) -/
theorem cycle_impl_writes_each_slot_once {α : Type} {lt : α → α → Bool} (hswo : IsSWO lt)
    {sz : Bool} {l l' : List α} {fuel w : Nat} {tr : List Ev}
    (hrun : cycle_impl lt sz l fuel = .ok l' w tr) :
    ∀ j, writesAt tr j ≤ 1 := by
  letI : DecidableEq α := Classical.decEq α
  rw [cycle_impl] at hrun
  by_cases hc : (sz || decide (l.length < 2)) = true
  · rw [if_pos hc, Res.ok.injEq] at hrun
    obtain ⟨_, _, rfl⟩ := hrun
    intro j
    rw [writesAt_nil]
    omega
  · rw [if_neg hc] at hrun
    have hrun2 : cycle_impl lt false l fuel = .ok l' w tr := by
      rw [cycle_impl, if_neg ?_]
      · exact hrun
      · intro hcon
        apply hc
        simp only [Bool.false_or] at hcon
        rw [hcon]
        simp
    obtain ⟨l₂, w₂, tr₂, hrun₂, _, _, _, honce⟩ := cycle_impl_swo hswo l
    obtain ⟨_, _, h3⟩ := cycle_impl_agree hrun2 hrun₂
    rw [h3]
    exact honce

theorem cycle_impl_writes_each_slot_once_witness :
    ∃ l' w tr, cycle_impl natLt false [2, 0, 1] 9 = Res.ok l' w tr ∧
      ∀ j, writesAt tr j ≤ 1 := by
  rcases h : cycle_impl natLt false [2, 0, 1] 9 with ⟨l', w, tr⟩ | _ | _
  · exact ⟨l', w, tr, rfl, cycle_impl_writes_each_slot_once natLt_swo h⟩
  · exact absurd h (by decide)
  · exact absurd h (by decide)

/-- C6 counterexample: in the run of `cycle_impl` on `[3, 1, 2]`, slot 2
receives its final occupant at trace position 3 (the only write to slot 2
in the whole run), the cycle that placed it closes at position 12 with no
other cycle closing in between, and position 13 afterwards reads slot 2
again, passing its element to `is_less` — refuting the claim that the
execution never again reads a slot once its cycle has closed and its
final occupant is in place. -/
theorem cycle_impl_reads_after_final_placement :
    cycle_impl natLt false [3, 1, 2] 9 = Res.ok [1, 2, 3] 3 c6trace ∧
    c6trace.get? 3 = some (Ev.write 2) ∧
    writesAt c6trace 2 = 1 ∧
    c6trace.get? 12 = some (Ev.close 0) ∧
    ((c6trace.drop 4).take 8).countP isClose = 0 ∧
    c6trace.get? 13 = some (Ev.read 2) := by
  refine ⟨by decide, by decide, by decide, by decide, by decide, by decide⟩

/-- C7: for every sequence that is already sorted non-decreasing under a
strict-weak-ordering `is_less`, the sort returns a write count of 0 and
leaves the sequence unchanged (it still performs the counting
comparisons). -/
theorem cycle_impl_sorted_input {α : Type} {lt : α → α → Bool} (hswo : IsSWO lt)
    (sz : Bool) {l : List α} (hsorted : is_sorted lt l = true) (fuel : Nat) :
    ∃ tr, cycle_impl lt sz l fuel = .ok l 0 tr := by
  rw [cycle_impl]
  by_cases hc : (sz || decide (l.length < 2)) = true
  · rw [if_pos hc]
    exact ⟨[], rfl⟩
  · rw [if_neg hc]
    have hlen2 : 2 ≤ l.length := by
      rcases Nat.lt_or_ge l.length 2 with h2 | h2
      · exact absurd (by simp [h2]) hc
      · exact h2
    have hno : ∀ s t, 0 ≤ s → l.get? s = some t → countLess lt l s t = 0 := by
      intro s t _ ht
      rw [countLess, List.countP_eq_zero]
      intro y hy
      obtain ⟨i, hgi⟩ := List.mem_iff_get?.mp hy
      rw [List.get?_drop] at hgi
      have hle := sorted_get?_le hswo hsorted (1 + i) s t y ht
        (by rwa [← Nat.add_assoc])
      simp [hle]
    obtain ⟨tr', hrun, _⟩ := outerLoop_noop fuel (l.length - 1) 0 l 0 [] (by omega) hno
    exact ⟨tr', hrun⟩

theorem cycle_impl_sorted_input_witness :
    ∃ tr, cycle_impl natLt false [1, 2, 2, 5] 9 = Res.ok [1, 2, 2, 5] 0 tr :=
  cycle_impl_sorted_input natLt_swo false (by decide) 9

/-- C8: for every sequence of length 0 or 1, and for every sequence of a
zero-size element type (modelled by the `size_is_zero` flag) of any
length, the sort returns 0 immediately and the sequence is unchanged,
with no comparisons or writes performed (the trace is empty). -/
theorem cycle_impl_trivial {α : Type} (lt : α → α → Bool) {sz : Bool} {l : List α}
    (h : sz = true ∨ l.length < 2) (fuel : Nat) :
    cycle_impl lt sz l fuel = .ok l 0 [] := by
  rcases h with h | h
  · subst h
    simp [cycle_impl]
  · rw [cycle_impl, if_pos (by simp [h])]

theorem cycle_impl_trivial_witness :
    cycle_impl natLt true [7, 3, 9] 0 = Res.ok [7, 3, 9] 0 [] ∧
    cycle_impl natLt false [5] 0 = Res.ok [5] 0 [] :=
  ⟨cycle_impl_trivial natLt (Or.inl rfl) 0,
   cycle_impl_trivial natLt (Or.inr (by decide)) 0⟩

/-- C9: the three entry points are thin adapters over one core:
`cycle_sort` equals `cycle_impl` with `is_less(a, b) := a < b` and equals
`cycle_sort_by` with the natural three-way compare; `cycle_sort_by`
derives its predicate as `compare(a, b) == Less`; and `cycle_sort_by_key`
equals `cycle_sort_by` with the comparator comparing `key(a)` to
`key(b)`. -/
theorem entry_points_are_adapters {α β γ : Type} [LinearOrder α] [LinearOrder β]
    (l : List α) (m : List γ) (key : γ → β) (cmp : α → α → Ordering) (sz : Bool)
    (fuel : Nat) :
    cycle_sort sz l fuel = cycle_impl (fun a b => decide (a < b)) sz l fuel ∧
    cycle_sort_by cmp sz l fuel =
      cycle_impl (fun a b => cmp a b == Ordering.lt) sz l fuel ∧
    cycle_sort sz l fuel = cycle_sort_by (fun a b => compare a b) sz l fuel ∧
    cycle_sort_by_key key sz m fuel =
      cycle_sort_by (fun a b => compare (key a) (key b)) sz m fuel := by
  refine ⟨rfl, rfl, ?_, ?_⟩
  · rw [cycle_sort, cycle_sort_by]
    congr 1
    funext a b
    exact (compare_beq_lt a b).symm
  · rw [cycle_sort_by_key, cycle_sort_by]
    congr 1
    funext a b
    exact (compare_beq_lt (key a) (key b)).symm

/-- C10: for every non-empty sequence of a non-zero-size element type in
which all elements are pairwise equal under `is_less` (neither
`is_less(a, b)` nor `is_less(b, a)` for any pair), the sort returns 0 and
leaves every position unchanged: every counting pass yields
`dst == src`, so the duplicate-skip loop and the swap are never reached
and the trace contains no write. -/
theorem cycle_impl_all_equal {α : Type} {lt : α → α → Bool} {l : List α} (hne : l ≠ [])
    (heqv : ∀ x ∈ l, ∀ y ∈ l, are_equal lt x y = true) (fuel : Nat) :
    ∃ tr, cycle_impl lt false l fuel = .ok l 0 tr ∧ ∀ j, Ev.write j ∉ tr := by
  rw [cycle_impl]
  by_cases hc : (false || decide (l.length < 2)) = true
  · rw [if_pos hc]
    exact ⟨[], rfl, fun j hj => by simp at hj⟩
  · rw [if_neg hc]
    have hlen2 : 2 ≤ l.length := by
      rcases Nat.lt_or_ge l.length 2 with h2 | h2
      · exact absurd (by simp [h2]) hc
      · exact h2
    have hno : ∀ s t, 0 ≤ s → l.get? s = some t → countLess lt l s t = 0 := by
      intro s t _ ht
      rw [countLess, List.countP_eq_zero]
      intro y hy
      have hyl : y ∈ l := (List.drop_subset _ _) hy
      have htl : t ∈ l := List.get?_mem ht
      obtain ⟨h1, _⟩ := are_equal_true_iff.mp (heqv y hyl t htl)
      simp [h1]
    obtain ⟨tr', hrun, hmem⟩ := outerLoop_noop fuel (l.length - 1) 0 l 0 [] (by omega) hno
    refine ⟨tr', hrun, ?_⟩
    intro j hj
    rcases hmem _ hj with h | ⟨i, hi⟩
    · simp at h
    · exact absurd hi (by simp)

theorem cycle_impl_all_equal_witness :
    ∃ tr, cycle_impl natLt false [4, 4, 4] 5 = Res.ok [4, 4, 4] 0 tr ∧
      ∀ j, Ev.write j ∉ tr :=
  cycle_impl_all_equal (by simp) (by decide) 5

end CycleSort
